import Mathlib

/-!
Verification of the useWeft client v0.2.0 (src/client/useweft-0.2.0.js).

The development shallowly embeds the client's bundle-resolution core:
the SHA-256 based bundle identifier (`computeHash`), the DOM class scan
canonicalization (`scanD`/`canon`), the stylesheet injector (`swapActive`),
the visibility gate (`uncloakFn`), the cache-tier resolver state machine
(`loadCall`/`hashJob`/`pathRest` and the event-step function `step`), and
the version resolver (`vstep`).  Machine integers are modelled as `Nat`
with explicit `% 2^32` where 32-bit overflow matters.
-/

namespace Weft

/-! ## Definitions: the embedding of the client -/

/-- The word modulus of SHA-256 arithmetic, `2^32`. -/
def w32 : Nat := 4294967296

/-- 32-bit right-rotate on a `Nat` representing a word `< 2^32`. -/
def rotr (n x : Nat) : Nat := x / 2 ^ n + x % 2 ^ n * 2 ^ (32 - n)

/-- Logical right shift. -/
def shr (n x : Nat) : Nat := x / 2 ^ n

/-- Bitwise complement within 32 bits (for `x < 2^32`). -/
def compl32 (x : Nat) : Nat := 4294967295 - x

def chF (x y z : Nat) : Nat := (x &&& y) ^^^ (compl32 x &&& z)

def majF (x y z : Nat) : Nat := (x &&& y) ^^^ (x &&& z) ^^^ (y &&& z)

def bigSigma0 (x : Nat) : Nat := rotr 2 x ^^^ rotr 13 x ^^^ rotr 22 x

def bigSigma1 (x : Nat) : Nat := rotr 6 x ^^^ rotr 11 x ^^^ rotr 25 x

def smallSigma0 (x : Nat) : Nat := rotr 7 x ^^^ rotr 18 x ^^^ shr 3 x

def smallSigma1 (x : Nat) : Nat := rotr 17 x ^^^ rotr 19 x ^^^ shr 10 x

/-- The SHA-256 round constants. -/
def K256 : List Nat :=
  [1116352408, 1899447441, 3049323471, 3921009573, 961987163,
   1508970993, 2453635748, 2870763221, 3624381080, 310598401,
   607225278, 1426881987, 1925078388, 2162078206, 2614888103,
   3248222580, 3835390401, 4022224774, 264347078, 604807628,
   770255983, 1249150122, 1555081692, 1996064986, 2554220882,
   2821834349, 2952996808, 3210313671, 3336571891, 3584528711,
   113926993, 338241895, 666307205, 773529912, 1294757372,
   1396182291, 1695183700, 1986661051, 2177026350, 2456956037,
   2730485921, 2820302411, 3259730800, 3345764771, 3516065817,
   3600352804, 4094571909, 275423344, 430227734, 506948616,
   659060556, 883997877, 958139571, 1322822218, 1537002063,
   1747873779, 1955562222, 2024104815, 2227730452, 2361852424,
   2428436474, 2756734187, 3204031479, 3329325298]

/-- The eight working registers of the compression function. -/
structure Hs where
  a : Nat
  b : Nat
  c : Nat
  d : Nat
  e : Nat
  f : Nat
  g : Nat
  h : Nat
deriving DecidableEq

/-- The SHA-256 initial hash value. -/
def iv256 : Hs :=
  ⟨1779033703, 3144134277, 1013904242, 2773480762,
   1359893119, 2600822924, 528734635, 1541459225⟩

/-- One compression round with round constant `k` and schedule word `w`. -/
def round256 (s : Hs) (kw : Nat × Nat) : Hs :=
  let t1 := (s.h + bigSigma1 s.e + chF s.e s.f s.g + kw.1 + kw.2) % w32
  let t2 := (bigSigma0 s.a + majF s.a s.b s.c) % w32
  ⟨(t1 + t2) % w32, s.a, s.b, s.c, (s.d + t1) % w32, s.e, s.f, s.g⟩

/-- Next word of the message schedule, from the words produced so far. -/
def nextW (l : List Nat) : Nat :=
  let k := l.length
  (smallSigma1 (l.getD (k - 2) 0) + l.getD (k - 7) 0 +
   smallSigma0 (l.getD (k - 15) 0) + l.getD (k - 16) 0) % w32

/-- Extend the 16 block words by `n` further schedule words. -/
def extendW : Nat → List Nat → List Nat
  | 0, l => l
  | n + 1, l => extendW n (l ++ [nextW l])

/-- Big-endian 4-byte groups to 32-bit words (`fuel` bounds recursion depth). -/
def toWordsF : Nat → List Nat → List Nat
  | 0, _ => []
  | _ + 1, [] => []
  | n + 1, l =>
      (l.getD 0 0 * 16777216 + l.getD 1 0 * 65536 + l.getD 2 0 * 256 + l.getD 3 0)
        :: toWordsF n (l.drop 4)

/-- Compress one 64-byte block into the running hash value. -/
def compressBlock (hv : Hs) (block : List Nat) : Hs :=
  let ws := extendW 48 (toWordsF 16 block)
  let s := (K256.zip ws).foldl round256 hv
  ⟨(hv.a + s.a) % w32, (hv.b + s.b) % w32, (hv.c + s.c) % w32, (hv.d + s.d) % w32,
   (hv.e + s.e) % w32, (hv.f + s.f) % w32, (hv.g + s.g) % w32, (hv.h + s.h) % w32⟩

/-- Process the padded message 64 bytes at a time (`fuel` bounds recursion). -/
def processB : Nat → Hs → List Nat → Hs
  | 0, hv, _ => hv
  | _ + 1, hv, [] => hv
  | n + 1, hv, bytes => processB n (compressBlock hv (bytes.take 64)) (bytes.drop 64)

/-- Big-endian 8-byte encoding of the 64-bit message bit length. -/
def lenBytes64 (n : Nat) : List Nat :=
  [n / 2 ^ 56 % 256, n / 2 ^ 48 % 256, n / 2 ^ 40 % 256, n / 2 ^ 32 % 256,
   n / 2 ^ 24 % 256, n / 2 ^ 16 % 256, n / 2 ^ 8 % 256, n % 256]

/-- SHA-256 message padding: `0x80`, zeros to 56 mod 64, then the bit length. -/
def padMsg (m : List Nat) : List Nat :=
  let L := m.length
  m ++ [128] ++ List.replicate ((119 - L % 64) % 64) 0 ++ lenBytes64 (8 * L)

/-- The four big-endian bytes of a 32-bit word. -/
def wordBytes (w : Nat) : List Nat :=
  [w / 16777216 % 256, w / 65536 % 256, w / 256 % 256, w % 256]

/-- The 32-byte digest output from the final hash value. -/
def bytesOfHs (hv : Hs) : List Nat :=
  (List.map wordBytes [hv.a, hv.b, hv.c, hv.d, hv.e, hv.f, hv.g, hv.h]).flatten

/-- SHA-256 of a byte sequence (bytes as `Nat < 256`), as a byte sequence. -/
def sha256 (m : List Nat) : List Nat :=
  let p := padMsg m
  bytesOfHs (processB p.length iv256 p)

/-- UTF-8 bytes of a string — the model of `TextEncoder().encode` (line 177). -/
def utf8Bytes (s : String) : List Nat :=
  (s.data.flatMap String.utf8EncodeChar).map UInt8.toNat

/-- Lowercase hex digit for `n < 16`. -/
def hexDigit (n : Nat) : Char :=
  Char.ofNat (if n < 10 then 48 + n else 87 + n)

/-- JavaScript `b.toString(16)` for a byte `b < 256`: minimal-length lowercase
hex, one digit below 16, two digits otherwise. -/
def jsHexByte (b : Nat) : String :=
  if b < 16 then String.mk [hexDigit b]
  else String.mk [hexDigit (b / 16), hexDigit (b % 16)]

/-- One step of the source's hex accumulation loop (line 179-180):
`h += (b[i] < 16 ? "0" : "") + b[i].toString(16)`. -/
def srcHexStep (h : String) (b : Nat) : String :=
  h ++ (if b < 16 then "0" else "") ++ jsHexByte b

/-- The bundle identifier function `computeHash` (lines 174-183): digest
`ver + "\n" + sorted.join(",")`,
hex-encode the digest bytes via the accumulation loop, truncate to 16 hex
characters, and prefix `"b_"`. -/
def computeHash (ver : String) (sorted : List String) : String :=
  let input := ver ++ "\n" ++ String.intercalate "," sorted
  let bytes := sha256 (utf8Bytes input)
  "b_" ++ (bytes.foldl srcHexStep "").take 16

/-- Modelled from the spec: the standard two-hex-digit encoding of one byte,
used to state the "first 16 hex chars of SHA-256" formula for BundleId. -/
def hexPair (b : Nat) : String :=
  String.mk [hexDigit (b / 16), hexDigit (b % 16)]

/-- Modelled from the spec: the full lowercase hex digest of a byte sequence. -/
def hexDigest (bytes : List Nat) : String :=
  String.join (bytes.map hexPair)

/-- Modelled from the spec (§3 BundleId, the server-side algorithm the client
must match): `"b_" + first 16 hex chars of SHA-256(ver + "\n" + join(C, ","))`. -/
def bundleIdSpec (ver : String) (sorted : List String) : String :=
  "b_" ++ (hexDigest (sha256 (utf8Bytes (ver ++ "\n" ++ String.intercalate "," sorted)))).take 16

/-- UTF-16 code units of one character (surrogate pair above `0xFFFF`). -/
def utf16Char (c : Char) : List Nat :=
  let n := c.toNat
  if n < 65536 then [n]
  else [55296 + (n - 65536) / 1024, 56320 + (n - 65536) % 1024]

/-- UTF-16 code units of a character sequence. -/
def utf16L : List Char → List Nat
  | [] => []
  | c :: cs => utf16Char c ++ utf16L cs

/-- UTF-16 code units of a string. -/
def utf16Units (s : String) : List Nat := utf16L s.data

/-- Lexicographic order on code-unit sequences. -/
def lexLeNat : List Nat → List Nat → Bool
  | [], _ => true
  | _ :: _, [] => false
  | a :: as, b :: bs => if a < b then true else if b < a then false else lexLeNat as bs

/-- The default JS string comparison: lexicographic on UTF-16 code units. -/
def jsLe (a b : String) : Bool := lexLeNat (utf16Units a) (utf16Units b)

/-- Insertion step of the sort on class-name strings. -/
def insertStr (x : String) : List String → List String
  | [] => [x]
  | y :: ys => if jsLe x y then x :: y :: ys else y :: insertStr x ys

/-- Sorting the distinct class names (the `.sort()` of line 169): on the
duplicate-free key list any comparison sort yields this unique sorted order. -/
def sortStr : List String → List String
  | [] => []
  | x :: xs => insertStr x (sortStr xs)

/-- Deduplication via the object-as-set of lines 163-167 (`set[cl] = 1`,
then `Object.keys`): each class appears once; order is irrelevant because
the keys are sorted afterwards. -/
def dedupStr : List String → List String
  | [] => []
  | x :: xs => if x ∈ dedupStr xs then dedupStr xs else x :: dedupStr xs

/-- The canonicalization `Object.keys(set).sort()` (line 169): the lexicographically
sorted, deduplicated class sequence. -/
def canon (l : List String) : List String := sortStr (dedupStr l)

/-- The scan (lines 162-170) as a function of the document's class lists:
collect every class of every element, deduplicate, sort. -/
def scanD (doc : List (List String)) : List String := canon doc.flatten

/-- The spec's `identify` (§4.3): the bundle identifier the pipeline computes
for a collected class list — `scan`'s canonicalization followed by
`computeHash`, as in `load(scan())` (lines 344, 456). -/
def identify (ver : String) (classes : List String) : String :=
  computeHash ver (canon classes)

/-- Observable events recorded by the instrumented machine. -/
inductive LogE
  | verReq
  | cssReq (id : String)
  | compileReq (cs : List String)
  | compileOk (id : String)
  | hashReq (ver : String) (cs : List String)
  | optMatch (id : String)
  | durableFound (id : String)
  | hintWrite (durable : Bool) (key : String) (id : String)
  | cssLoaded (id : String)
deriving DecidableEq

/-- The per-page-load state: module-level variables of the IIFE, the DOM
(attached stylesheet nodes by numeric id, plus the document's class lists),
the two storage areas, and the pending suspensions. -/
structure St where
  pageKey : String
  attached : List Nat
  everActive : List Nat
  active : Option Nat
  nextId : Nat
  domLog : List (List Nat × List Nat)
  cloakAttached : Bool
  uncloaked : Bool
  timerActive : Bool
  optimisticId : Option String
  optimisticEl : Option Nat
  optimisticLoaded : Bool
  optPending : Bool
  sess : List (String × String)
  locl : List (String × String)
  versionToken : Option String
  currentId : Option String
  ready : Bool
  loading : Bool
  needsRescan : Bool
  pendingVersion : Option (List String)
  pendingHash : Option (String × List String)
  pendingCompile : Option (List String)
  pendingPreload : Option (List String)
  pendingLinks : List (Nat × String)
  doc : List (List String)
  log : List LogE
deriving DecidableEq

/-- Storage read (`ssGet`/`lsGet`, lines 51-57, 68-74; failures would read as
misses, success is modelled). -/
def sGet (m : List (String × String)) (k : String) : Option String :=
  (m.find? (fun p => p.1 == k)).map (fun p => p.2)

/-- Storage write (`ssSet`/`lsSet`, lines 58-62, 75-79). -/
def sSet (m : List (String × String)) (k v : String) : List (String × String) :=
  (k, v) :: m

/-- Storage delete (`ssDel`, lines 63-67). -/
def sDel (m : List (String × String)) (k : String) : List (String × String) :=
  m.filter (fun p => ! (p.1 == k))

/-- Record the current attached/ever-active configuration into `domLog`. -/
def snap (st : St) : St :=
  {st with domLog := st.domLog ++ [(st.attached, st.everActive)]}

/-- Attach: `document.head.appendChild(el)`. -/
def appendNode (n : Nat) (st : St) : St :=
  snap {st with attached := st.attached ++ [n]}

/-- Detach: `parentNode.removeChild(el)`. -/
def removeNode (n : Nat) (st : St) : St :=
  snap {st with attached := st.attached.erase n}

/-- Designate a node as the active stylesheet: `active = el`. -/
def designateActive (n : Nat) (st : St) : St :=
  snap {st with active := some n, everActive := st.everActive ++ [n]}

/-- The gate release `uncloak` (lines 95-100), idempotent: clear the timer and
remove the cloak node, but only on the first call. -/
def uncloakFn (st : St) : St :=
  if st.uncloaked then st
  else {st with uncloaked := true, timerActive := false, cloakAttached := false}

/-- The second half of `swapActive` (lines 151-157): designate the new node
active, attach it, then remove the optimistic node if attached and distinct. -/
def swapFinish (el : Nat) (st1 : St) : St :=
  let st2 := appendNode el (designateActive el st1)
  match st2.optimisticEl with
  | some o =>
      if o = el then st2
      else if o ∈ st2.attached then {removeNode o st2 with optimisticEl := none}
      else st2
  | none => st2

/-- The swap `swapActive` (lines 149-158), in source order: remove the attached
previously-active node (line 150), then designate, attach, and clean up the
optimistic node (`swapFinish`). -/
def swapActive (el : Nat) (st : St) : St :=
  let st1 :=
    match st.active with
    | some a => if a ∈ st.attached then removeNode a st else st
    | none => st
  swapFinish el st1

/-- Write the session hint, logged: `ssSet(pageKey, bid)`. -/
def ssHint (bid : String) (st : St) : St :=
  {st with sess := sSet st.sess st.pageKey bid,
           log := st.log ++ [.hintWrite false st.pageKey bid]}

/-- Write the durable hint, logged: `lsSet("weft:" + bid, "1")`. -/
def lsHint (bid : String) (st : St) : St :=
  {st with locl := sSet st.locl ("weft:" ++ bid) "1",
           log := st.log ++ [.hintWrite true ("weft:" ++ bid) bid]}

/-- The link injection (lines 134-140): create a fresh link node for the bundle's
CSS path, swap it in; its load/error callback (always `uncloak` at the call
sites) stays pending. -/
def injectLink (bid : String) (st : St) : St :=
  let el := st.nextId
  let st1 := {st with nextId := st.nextId + 1, log := st.log ++ [.cssReq bid]}
  let st2 := swapActive el st1
  {st2 with pendingLinks := st2.pendingLinks ++ [(el, bid)]}

/-- The inline-style injection (lines 142-147): create a fresh style node,
swap it in, and invoke the callback (`uncloak`) synchronously. -/
def injectStyle (st : St) : St :=
  let el := st.nextId
  let st1 := {st with nextId := st.nextId + 1}
  uncloakFn (swapActive el st1)

/-- The resolution entry `load(sorted)` (lines 217-246) up to its first
suspension: the empty-set
shortcut, the single-flight gate, or the start of `doLoad` — which runs
`getVersion()` and suspends either at the version fetch (token unset) or at
the digest (token memoized). -/
def loadCall (sorted : List String) (st : St) : St :=
  if sorted.isEmpty then
    {uncloakFn st with ready := true}
  else if st.loading then
    {st with needsRescan := true}
  else
    let st1 := {st with loading := true}
    match st1.versionToken with
    | some v =>
        {st1 with pendingHash := some (v, sorted), log := st1.log ++ [.hashReq v sorted]}
    | none =>
        {st1 with pendingVersion := some sorted, log := st1.log ++ [.verReq]}

/-- The fulfilled continuation of `load` (lines 233-239): clear the gate; if a
rescan was queued, consume the flag and start one new resolution from a fresh
scan of the current document. -/
def onOkJob (st : St) : St :=
  let st1 := {st with loading := false}
  if st1.needsRescan then loadCall (scanD st1.doc) {st1 with needsRescan := false}
  else st1

/-- The rejected continuation of `load` (lines 240-244): clear the gate and
uncloak; the `needsRescan` flag is not consulted. -/
def onErrJob (st : St) : St :=
  uncloakFn {st with loading := false}

/-- Paths 2-4 of `doLoad` (lines 266-313): already-current, known-durable,
cold compile. -/
def pathRest (bid : String) (sorted : List String) (st : St) : St :=
  if st.currentId = some bid then
    onOkJob (uncloakFn {st with ready := true})
  else if (sGet st.locl ("weft:" ++ bid)).isSome then
    let st1 := ssHint bid {st with currentId := some bid, ready := true,
                                   log := st.log ++ [.durableFound bid]}
    onOkJob (injectLink bid st1)
  else
    {st with pendingCompile := some sorted, log := st.log ++ [.compileReq sorted]}

/-- The digest's continuation (lines 250-313): compute the bundle id, try the
optimistic path 1, else fall through to `pathRest`.  For paths 1-3 `doLoad`'s
promise settles within this job, so `load`'s fulfilled continuation runs too. -/
def hashJob (ver : String) (sorted : List String) (st0 : St) : St :=
  let bid := computeHash ver sorted
  let st := {st0 with pendingHash := none}
  match st.optimisticEl with
  | some o =>
      if st.optimisticId = some bid then
        let st1 := {st with currentId := some bid, ready := true,
                            log := st.log ++ [.optMatch bid]}
        let st2 := {designateActive o st1 with optimisticEl := none}
        let st3 := lsHint bid (ssHint bid st2)
        onOkJob (if st3.optimisticLoaded then uncloakFn st3 else st3)
      else pathRest bid sorted st
  | none => pathRest bid sorted st

/-- The version fetch settles (lines 189-204): memoize the token (the sentinel
`"unknown"` on failure) and proceed to the digest suspension. -/
def versionJob (v : String) (sorted : List String) (st : St) : St :=
  {st with versionToken := some v, pendingVersion := none,
           pendingHash := some (v, sorted), log := st.log ++ [.hashReq v sorted]}

/-- The prefetch link creation (lines 307-312): a non-stylesheet node appended
to the head to prime the HTTP cache. -/
def prefetchLink (bid : String) (st : St) : St :=
  let el := st.nextId
  appendNode el {st with nextId := st.nextId + 1, log := st.log ++ [.cssReq bid]}

/-- The compile response handler (lines 294-313): record the server's bundle
id, install the CSS (inline style if provided, else a link), write both
hints, prefetch when inline, then `doLoad` settles and `load`'s fulfilled
continuation runs. -/
def compileOkJob (bid : String) (css : Bool) (st0 : St) : St :=
  let st := {st0 with pendingCompile := none, log := st0.log ++ [LogE.compileOk bid]}
  let st1 := {st with currentId := some bid, ready := true}
  let st2 := if css then injectStyle st1 else injectLink bid st1
  let st3 := ssHint bid (lsHint bid st2)
  let st4 := if css then prefetchLink bid st3 else st3
  onOkJob st4

/-- An injected link's load or error callback fires: both call `uncloak`
(line 138); a successful load confirms the bundle retrievable. -/
def linkDoneJob (n : Nat) (bid : String) (ok : Bool) (st : St) : St :=
  if (n, bid) ∈ st.pendingLinks then
    let st1 := {st with pendingLinks := st.pendingLinks.filter (fun p => ! (p == (n, bid))),
                        log := if ok then st.log ++ [.cssLoaded bid] else st.log}
    uncloakFn st1
  else st

/-- The optimistic link's `onload` (lines 116-120). -/
def optOkJob (st : St) : St :=
  match st.optimisticId with
  | some oid =>
      let st1 := {st with optPending := false, optimisticLoaded := true,
                          log := st.log ++ [.cssLoaded oid]}
      if st1.currentId = st1.optimisticId then uncloakFn st1 else st1
  | none => st

/-- The optimistic link's `onerror` (lines 121-126): discard the guess and
clear the stale session hint (the node itself is not detached). -/
def optErrJob (st : St) : St :=
  {st with optPending := false, optimisticEl := none, optimisticLoaded := false,
           sess := sDel st.sess st.pageKey}

/-- The facade `preload(classes)` (lines 361-385) up to its compile suspension. -/
def preloadCallJob (classes : List String) (st : St) : St :=
  if classes.isEmpty then st
  else
    let sorted := canon (scanD st.doc ++ classes)
    {st with pendingPreload := some sorted, log := st.log ++ [.compileReq sorted]}

/-- The compile response of `preload`: record the durable hint only. -/
def preloadOkJob (bid : String) (st : St) : St :=
  lsHint bid {st with pendingPreload := none, log := st.log ++ [.compileOk bid]}

/-- The compile failure of `preload`: swallowed (lines 382-384). -/
def preloadErrJob (st : St) : St :=
  {st with pendingPreload := none}

/-- Events delivered by the environment: DOM readiness, façade calls, DOM
mutations, the cloak timer, and settlements of the pending suspensions. -/
inductive Ev
  | domReady
  | rehash
  | mutate (doc : List (List String))
  | timerFire
  | optOk
  | optErr
  | versionOk (v : String)
  | versionErr
  | hashDone
  | compileOk (bid : String) (css : Bool)
  | compileErr
  | linkDone (n : Nat) (bid : String) (ok : Bool)
  | preloadCall (classes : List String)
  | preloadOk (bid : String)
  | preloadErr
deriving DecidableEq

/-- One step of the event loop; settlement events are ignored unless the
matching suspension is pending. -/
def step (st : St) : Ev → St
  | .domReady => loadCall (scanD st.doc) st
  | .rehash => loadCall (scanD st.doc) st
  | .mutate d => {st with doc := d}
  | .timerFire => if st.timerActive then uncloakFn st else st
  | .optOk => if st.optPending then optOkJob st else st
  | .optErr => if st.optPending then optErrJob st else st
  | .versionOk v =>
      match st.pendingVersion with
      | some sorted => versionJob v sorted st
      | none => st
  | .versionErr =>
      match st.pendingVersion with
      | some sorted => versionJob "unknown" sorted st
      | none => st
  | .hashDone =>
      match st.pendingHash with
      | some (ver, sorted) => hashJob ver sorted st
      | none => st
  | .compileOk bid css =>
      if st.pendingCompile.isSome then compileOkJob bid css st else st
  | .compileErr =>
      if st.pendingCompile.isSome then onErrJob {st with pendingCompile := none} else st
  | .linkDone n bid ok => linkDoneJob n bid ok st
  | .preloadCall classes => preloadCallJob classes st
  | .preloadOk bid =>
      if st.pendingPreload.isSome then preloadOkJob bid st else st
  | .preloadErr => preloadErrJob st

/-- Run the machine over an event sequence. -/
def run (evs : List Ev) (st : St) : St := evs.foldl step st

/-- The module initialization (lines 37-128): cloak attached, bounded timer
started, optimistic link injected when the session stores a bundle id for the
page identity `path + search`. -/
def boot (pathname search : String) (sess locl : List (String × String))
    (doc : List (List String)) : St :=
  let pk := "weft:p:" ++ pathname ++ search
  let base : St :=
    { pageKey := pk, attached := [], everActive := [], active := none, nextId := 0,
      domLog := [], cloakAttached := true, uncloaked := false, timerActive := true,
      optimisticId := sGet sess pk, optimisticEl := none, optimisticLoaded := false,
      optPending := false, sess := sess, locl := locl, versionToken := none,
      currentId := none, ready := false, loading := false, needsRescan := false,
      pendingVersion := none, pendingHash := none, pendingCompile := none,
      pendingPreload := none, pendingLinks := [], doc := doc, log := [] }
  match sGet sess pk with
  | some oid =>
      appendNode 0 {base with nextId := 1, optimisticEl := some 0, optPending := true,
                              log := [.cssReq oid]}
  | none => base

/-- The snapshot `status()` (lines 446-448). -/
def statusOf (st : St) : Option String × Option String × Bool :=
  (st.currentId, st.versionToken, st.ready)

/-- State of `getVersion`/`fetchVersion` (lines 187-208): the memoized token,
the number of fetches issued, and the number of unsettled fetches. -/
structure VSt where
  token : Option String
  fetches : Nat
  pending : Nat
deriving DecidableEq

/-- Resolver events: a `getVersion()` call, or a fetch settling. -/
inductive VEv
  | call
  | settleOk (v : String)
  | settleErr
deriving DecidableEq

/-- The resolver `getVersion` (lines 206-208) checks the memoized token only; an unset
token triggers `fetchVersion` (lines 189-204), whose rejection path memoizes
the sentinel `"unknown"` and resolves. -/
def vstep (s : VSt) : VEv → VSt
  | .call =>
      match s.token with
      | some _ => s
      | none => {s with fetches := s.fetches + 1, pending := s.pending + 1}
  | .settleOk v =>
      if 0 < s.pending then {s with pending := s.pending - 1, token := some v} else s
  | .settleErr =>
      if 0 < s.pending then {s with pending := s.pending - 1, token := some "unknown"} else s

/-- Run the resolver over an event sequence. -/
def vrun (evs : List VEv) (s : VSt) : VSt := evs.foldl vstep s

/-- The page-load initial resolver state: no token, no fetch yet. -/
def vInit : VSt := ⟨none, 0, 0⟩

/-- The claim C4 reads literally: every hint write must be preceded by a
confirmed stylesheet load (`cssLoaded`) or a successful compile (`compileOk`)
for the same bundle id. -/
def hintsAfterConfirm : List String → List LogE → Bool
  | _, [] => true
  | seen, LogE.hintWrite _ _ id :: rest => seen.contains id && hintsAfterConfirm seen rest
  | seen, LogE.cssLoaded id :: rest => hintsAfterConfirm (id :: seen) rest
  | seen, LogE.compileOk id :: rest => hintsAfterConfirm (id :: seen) rest
  | seen, _ :: rest => hintsAfterConfirm seen rest

/-- The amended hint-write discipline the code actually maintains: every hint
write is preceded by a successful compile, an optimistic hash match, or a
durable-hint lookup hit for the same bundle id. -/
def hintsJustified : List String → List LogE → Bool
  | _, [] => true
  | seen, LogE.hintWrite _ _ id :: rest => seen.contains id && hintsJustified seen rest
  | seen, LogE.compileOk id :: rest => hintsJustified (id :: seen) rest
  | seen, LogE.optMatch id :: rest => hintsJustified (id :: seen) rest
  | seen, LogE.durableFound id :: rest => hintsJustified (id :: seen) rest
  | seen, _ :: rest => hintsJustified seen rest

/-- The bundle id of the single-class document `["a"]` under the sentinel
version token. -/
def bidA : String := computeHash "unknown" ["a"]

/-- A cold first visit: no hints, one classed element; a rescan is requested
while the resolution is in flight, and the compile then fails. -/
def c3run : St :=
  run [.domReady, .rehash, .versionErr, .hashDone, .compileErr]
    (boot "/" "" [] [] [["a"]])

/-- A repeat visit in the same session: the session hint seeds the optimistic
link; the scan confirms the guess before the speculative stylesheet has
finished loading. -/
def c4run : St :=
  run [.domReady, .versionErr, .hashDone]
    (boot "/" "" [("weft:p:/", bidA)] [] [["a"]])

/-- A repeat visit in a new session: only the durable hint exists, so the
resolver takes path 3 (known-durable) and injects a link whose load is still
pending. -/
def c10run : St :=
  run [.domReady, .versionErr, .hashDone]
    (boot "/" "" [] [("weft:" ++ bidA, "1")] [["a"]])

/-- A state with one attached, active stylesheet node (as after a completed
resolution), used to exercise `swapActive` and `uncloakFn` concretely. -/
def swapSt : St :=
  { pageKey := "weft:p:/", attached := [0], everActive := [0], active := some 0, nextId := 1,
    domLog := [], cloakAttached := true, uncloaked := false, timerActive := true,
    optimisticId := none, optimisticEl := none, optimisticLoaded := false,
    optPending := false, sess := [], locl := [], versionToken := none,
    currentId := none, ready := false, loading := false, needsRescan := false,
    pendingVersion := none, pendingHash := none, pendingCompile := none,
    pendingPreload := none, pendingLinks := [], doc := [], log := [] }

/-- The state `swapSt` after the gate has been released. -/
def uncloakedSt : St := uncloakFn swapSt

/-- Agreement of `b` with `a` on every resolver control field. -/
def RFrame (a b : St) : Prop :=
  b.loading = a.loading ∧ b.needsRescan = a.needsRescan ∧
  b.versionToken = a.versionToken ∧ b.pendingVersion = a.pendingVersion ∧
  b.pendingHash = a.pendingHash ∧ b.pendingCompile = a.pendingCompile ∧
  b.doc = a.doc

/-- The number of attached nodes that are or ever were the active
stylesheet. -/
def cntA (att ev : List Nat) : Nat :=
  (att.filter (fun n => decide (n ∈ ev))).length

/-- The injector invariant: attached ever-active nodes all coincide with the
current active node; a live optimistic node precedes any activation and is
attached; node ids are distinct and below the allocator; every recorded DOM
snapshot shows at most one attached (ever-)active node. -/
structure Inv (st : St) : Prop where
  actUnique : ∀ n ∈ st.attached, n ∈ st.everActive → st.active = some n
  optNoActive : ∀ o, st.optimisticEl = some o → st.active = none
  optAttached : ∀ o, st.optimisticEl = some o → o ∈ st.attached
  nodup : st.attached.Nodup
  attLt : ∀ n ∈ st.attached, n < st.nextId
  evLt : ∀ n ∈ st.everActive, n < st.nextId
  logOK : ∀ e ∈ st.domLog, cntA e.1 e.2 ≤ 1

/-- The justifying ids accumulated while walking a log. -/
def collectJ : List String → List LogE → List String
  | seen, [] => seen
  | seen, LogE.compileOk id :: rest => collectJ (id :: seen) rest
  | seen, LogE.optMatch id :: rest => collectJ (id :: seen) rest
  | seen, LogE.durableFound id :: rest => collectJ (id :: seen) rest
  | seen, _ :: rest => collectJ seen rest

/-- The log of `b` extends that of `a` by a block whose hint writes are all
justified,
assuming the ids in `ids` are justified before the block. -/
def JustExt (ids : List String) (a b : St) : Prop :=
  ∃ B, b.log = a.log ++ B ∧
    ∀ seen : List String, (∀ i ∈ ids, i ∈ seen) → hintsJustified seen B = true

/-! ## Theorems -/

theorem mem_wordBytes_lt {b w : Nat} (h : b ∈ wordBytes w) : b < 256 := by
  simp only [wordBytes, List.mem_cons, List.not_mem_nil, or_false] at h
  rcases h with h | h | h | h <;> subst h <;> omega

theorem sha256_byte_lt {m : List Nat} {b : Nat} (h : b ∈ sha256 m) : b < 256 := by
  simp only [sha256, bytesOfHs, List.mem_flatten, List.mem_map] at h
  obtain ⟨l, ⟨w, _, rfl⟩, hb⟩ := h
  exact mem_wordBytes_lt hb

theorem srcHexStep_eq_hexPair (h : String) {b : Nat} (_hb : b < 256) :
    srcHexStep h b = h ++ hexPair b := by
  by_cases h16 : b < 16
  · have hdiv : b / 16 = 0 := Nat.div_eq_of_lt h16
    have hmod : b % 16 = b := Nat.mod_eq_of_lt h16
    simp only [srcHexStep, jsHexByte, hexPair, if_pos h16, hdiv, hmod]
    have h0 : ("0" : String) ++ String.mk [hexDigit b] = String.mk [hexDigit 0, hexDigit b] := rfl
    rw [String.append_assoc, h0]
  · simp only [srcHexStep, jsHexByte, hexPair, if_neg h16]
    have h0 : ("" : String) ++ String.mk [hexDigit (b / 16), hexDigit (b % 16)]
        = String.mk [hexDigit (b / 16), hexDigit (b % 16)] := rfl
    rw [String.append_assoc, h0]

theorem strFoldlAppend (l : List String) :
    ∀ acc : String, l.foldl (· ++ ·) acc = acc ++ l.foldl (· ++ ·) "" := by
  induction l with
  | nil => intro acc; rw [List.foldl_nil, List.foldl_nil, String.append_empty]
  | cons x xs ih =>
      intro acc
      rw [List.foldl_cons, List.foldl_cons, ih (acc ++ x), ih ("" ++ x),
        String.empty_append, String.append_assoc]

theorem hexDigest_cons (x : Nat) (xs : List Nat) :
    hexDigest (x :: xs) = hexPair x ++ hexDigest xs := by
  simp only [hexDigest, String.join, List.map_cons, List.foldl_cons, String.empty_append]
  exact strFoldlAppend _ _

theorem hexLoop_eq_hexDigest (bytes : List Nat) (hb : ∀ b ∈ bytes, b < 256) :
    ∀ acc : String, bytes.foldl srcHexStep acc = acc ++ hexDigest bytes := by
  induction bytes with
  | nil =>
      intro acc
      show acc = acc ++ String.join []
      rw [String.join, List.foldl_nil, String.append_empty]
  | cons x xs ih =>
      intro acc
      have hx : x < 256 := hb x (by simp)
      have hxs : ∀ b ∈ xs, b < 256 := fun b h => hb b (by simp [h])
      rw [List.foldl_cons, srcHexStep_eq_hexPair acc hx, ih hxs, hexDigest_cons,
        String.append_assoc]

/-- **C1.** For every version token and class sequence, `computeHash` returns
`"b_"` followed by the first 16 hex characters of the SHA-256 digest of
`ver + "\n" + join(classes, ",")` — exactly the spec's BundleId formula
(same input encoding, same digest, same truncation). -/
theorem computeHash_eq_bundleIdSpec (ver : String) (sorted : List String) :
    computeHash ver sorted = bundleIdSpec ver sorted := by
  have h := hexLoop_eq_hexDigest
    (sha256 (utf8Bytes (ver ++ "\n" ++ String.intercalate "," sorted)))
    (fun b hmem => sha256_byte_lt hmem) ""
  simp only [computeHash, bundleIdSpec, h, String.empty_append]

theorem lexLeNat_cons_iff {a b : Nat} {as bs : List Nat} :
    lexLeNat (a :: as) (b :: bs) = true ↔ a < b ∨ (a = b ∧ lexLeNat as bs = true) := by
  simp only [lexLeNat]
  split_ifs with h1 h2
  · simp [h1]
  · constructor
    · intro h; exact absurd h (by simp)
    · rintro (h | ⟨he, _⟩) <;> omega
  · have he : a = b := by omega
    subst he
    simp [Nat.lt_irrefl]

theorem lexLeNat_total : ∀ a b : List Nat, lexLeNat a b = true ∨ lexLeNat b a = true
  | [], _ => Or.inl rfl
  | _ :: _, [] => Or.inr rfl
  | a :: as, b :: bs => by
      rw [lexLeNat_cons_iff, lexLeNat_cons_iff]
      rcases Nat.lt_trichotomy a b with h | h | h
      · exact Or.inl (Or.inl h)
      · subst h
        rcases lexLeNat_total as bs with h | h
        · exact Or.inl (Or.inr ⟨rfl, h⟩)
        · exact Or.inr (Or.inr ⟨rfl, h⟩)
      · exact Or.inr (Or.inl h)

theorem lexLeNat_trans :
    ∀ a b c : List Nat, lexLeNat a b = true → lexLeNat b c = true → lexLeNat a c = true
  | [], _, _, _, _ => rfl
  | _ :: _, [], _, h, _ => by simp [lexLeNat] at h
  | _ :: _, _ :: _, [], _, h => by simp [lexLeNat] at h
  | a :: as, b :: bs, c :: cs, h1, h2 => by
      rw [lexLeNat_cons_iff] at h1 h2 ⊢
      rcases h1 with h1 | ⟨he1, h1⟩
      · rcases h2 with h2 | ⟨he2, _⟩
        · exact Or.inl (by omega)
        · exact Or.inl (by omega)
      · rcases h2 with h2 | ⟨he2, h2⟩
        · exact Or.inl (by omega)
        · exact Or.inr ⟨by omega, lexLeNat_trans as bs cs h1 h2⟩

theorem lexLeNat_antisymm :
    ∀ a b : List Nat, lexLeNat a b = true → lexLeNat b a = true → a = b
  | [], [], _, _ => rfl
  | [], _ :: _, _, h => by simp [lexLeNat] at h
  | _ :: _, [], h, _ => by simp [lexLeNat] at h
  | a :: as, b :: bs, h1, h2 => by
      rw [lexLeNat_cons_iff] at h1 h2
      rcases h1 with h1 | ⟨he1, h1⟩
      · rcases h2 with h2 | ⟨he2, _⟩ <;> omega
      · rcases h2 with h2 | ⟨he2, h2⟩
        · omega
        · rw [he1, lexLeNat_antisymm as bs h1 h2]

theorem char_toNat_valid (c : Char) :
    c.toNat < 55296 ∨ (57343 < c.toNat ∧ c.toNat < 1114112) := c.valid

theorem char_toNat_inj {c d : Char} (h : c.toNat = d.toNat) : c = d :=
  Char.ext (UInt32.eq_of_toBitVec_eq (BitVec.toNat_eq.mpr h))

theorem utf16Char_low {c : Char} (h : c.toNat < 65536) : utf16Char c = [c.toNat] := by
  simp [utf16Char, h]

theorem utf16Char_high {c : Char} (h : ¬ c.toNat < 65536) :
    utf16Char c = [55296 + (c.toNat - 65536) / 1024, 56320 + (c.toNat - 65536) % 1024] := by
  simp [utf16Char, h]

theorem utf16_head_cases {c d : Char} {t1 t2 : List Nat}
    (h : utf16Char c ++ t1 = utf16Char d ++ t2) : c = d ∧ t1 = t2 := by
  have hcv := char_toNat_valid c
  have hdv := char_toNat_valid d
  by_cases hc : c.toNat < 65536 <;> by_cases hd : d.toNat < 65536
  · rw [utf16Char_low hc, utf16Char_low hd] at h
    simp only [List.cons_append, List.nil_append] at h
    injection h with h1 h2
    exact ⟨char_toNat_inj h1, h2⟩
  · rw [utf16Char_low hc, utf16Char_high hd] at h
    simp only [List.cons_append, List.nil_append] at h
    injection h with h1 h2
    exact absurd h1 (by omega)
  · rw [utf16Char_high hc, utf16Char_low hd] at h
    simp only [List.cons_append, List.nil_append] at h
    injection h with h1 h2
    exact absurd h1 (by omega)
  · rw [utf16Char_high hc, utf16Char_high hd] at h
    simp only [List.cons_append, List.nil_append] at h
    injection h with h1 h23
    injection h23 with h2 h3
    have he : c.toNat = d.toNat := by omega
    exact ⟨char_toNat_inj he, h3⟩

theorem utf16L_inj : ∀ as bs : List Char, utf16L as = utf16L bs → as = bs
  | [], [], _ => rfl
  | [], c :: cs, h => by
      simp only [utf16L] at h
      by_cases hc : c.toNat < 65536 <;>
        simp [utf16Char_low, utf16Char_high, hc] at h
  | c :: cs, [], h => by
      simp only [utf16L] at h
      by_cases hc : c.toNat < 65536 <;>
        simp [utf16Char_low, utf16Char_high, hc] at h
  | c :: cs, d :: ds, h => by
      simp only [utf16L] at h
      obtain ⟨rfl, h3⟩ := utf16_head_cases h
      rw [utf16L_inj cs ds h3]

theorem utf16Units_inj {a b : String} (h : utf16Units a = utf16Units b) : a = b := by
  cases a with
  | mk da =>
      cases b with
      | mk db => exact congrArg String.mk (utf16L_inj da db h)

theorem jsLe_total (a b : String) : jsLe a b = true ∨ jsLe b a = true :=
  lexLeNat_total _ _

theorem jsLe_trans {a b c : String} (h1 : jsLe a b = true) (h2 : jsLe b c = true) :
    jsLe a c = true :=
  lexLeNat_trans _ _ _ h1 h2

theorem jsLe_antisymm {a b : String} (h1 : jsLe a b = true) (h2 : jsLe b a = true) :
    a = b :=
  utf16Units_inj (lexLeNat_antisymm _ _ h1 h2)

theorem mem_insertStr {x y : String} : ∀ {l : List String},
    y ∈ insertStr x l ↔ y = x ∨ y ∈ l
  | [] => by simp [insertStr]
  | z :: zs => by
      simp only [insertStr]
      split_ifs with h
      · simp [List.mem_cons]
      · simp only [List.mem_cons, mem_insertStr (l := zs)]
        tauto

theorem insertStr_perm (x : String) : ∀ l : List String, List.Perm (insertStr x l) (x :: l)
  | [] => List.Perm.refl _
  | y :: ys => by
      simp only [insertStr]
      split_ifs with h
      · exact List.Perm.refl _
      · exact ((insertStr_perm x ys).cons y).trans (List.Perm.swap x y ys)

theorem sortStr_perm : ∀ l : List String, List.Perm (sortStr l) l
  | [] => List.Perm.refl _
  | x :: xs => (insertStr_perm x (sortStr xs)).trans ((sortStr_perm xs).cons x)

theorem sorted_insertStr {x : String} :
    ∀ {l : List String}, l.Sorted (fun a b => jsLe a b = true) →
      (insertStr x l).Sorted (fun a b => jsLe a b = true)
  | [], _ => by simp [insertStr]
  | y :: ys, hl => by
      rw [List.sorted_cons] at hl
      obtain ⟨hy, hys⟩ := hl
      simp only [insertStr]
      split_ifs with h
      · rw [List.sorted_cons]
        refine ⟨?_, by rw [List.sorted_cons]; exact ⟨hy, hys⟩⟩
        intro z hz
        rcases List.mem_cons.mp hz with rfl | hz
        · exact h
        · exact jsLe_trans h (hy z hz)
      · rw [List.sorted_cons]
        refine ⟨?_, sorted_insertStr hys⟩
        intro z hz
        rcases (mem_insertStr).mp hz with rfl | hz
        · rcases jsLe_total y z with hyx | hxy
          · exact hyx
          · exact absurd hxy h
        · exact hy z hz

theorem sorted_sortStr : ∀ l : List String, (sortStr l).Sorted (fun a b => jsLe a b = true)
  | [] => List.sorted_nil
  | _ :: xs => sorted_insertStr (sorted_sortStr xs)

theorem mem_dedupStr {x : String} : ∀ {l : List String}, x ∈ dedupStr l ↔ x ∈ l
  | [] => Iff.rfl
  | y :: ys => by
      simp only [dedupStr]
      split_ifs with h
      · simp only [List.mem_cons, mem_dedupStr (l := ys)]
        constructor
        · exact Or.inr
        · rintro (rfl | hm)
          · exact mem_dedupStr.mp h
          · exact hm
      · simp only [List.mem_cons, mem_dedupStr (l := ys)]

theorem nodup_dedupStr : ∀ l : List String, (dedupStr l).Nodup
  | [] => List.nodup_nil
  | y :: ys => by
      simp only [dedupStr]
      split_ifs with h
      · exact nodup_dedupStr ys
      · exact List.Nodup.cons (fun hm => h hm) (nodup_dedupStr ys)

theorem canon_nodup (l : List String) : (canon l).Nodup :=
  ((sortStr_perm (dedupStr l)).nodup_iff).mpr (nodup_dedupStr l)

theorem canon_sorted (l : List String) : (canon l).Sorted (fun a b => jsLe a b = true) :=
  sorted_sortStr (dedupStr l)

theorem mem_canon {x : String} {l : List String} : x ∈ canon l ↔ x ∈ l :=
  Iff.trans ((sortStr_perm (dedupStr l)).mem_iff) mem_dedupStr

/-- Canonicalization depends only on the set of classes present: lists with
the same members canonicalize identically. -/
theorem canon_eq_of_mem_iff {l₁ l₂ : List String} (h : ∀ x, x ∈ l₁ ↔ x ∈ l₂) :
    canon l₁ = canon l₂ := by
  haveI : IsAntisymm String (fun a b => jsLe a b = true) :=
    ⟨fun a b h1 h2 => jsLe_antisymm h1 h2⟩
  refine List.eq_of_perm_of_sorted ?_ (canon_sorted _) (canon_sorted _)
  refine (List.subperm_of_subset (canon_nodup _) ?_).antisymm
    (List.subperm_of_subset (canon_nodup _) ?_)
  · intro x hx
    exact mem_canon.mpr ((h x).mp (mem_canon.mp hx))
  · intro x hx
    exact mem_canon.mpr ((h x).mpr (mem_canon.mp hx))

set_option maxRecDepth 8000 in
/-- **C7 (counterexample).** `computeHash` applied to the raw, uncanonicalized
list is order-sensitive: reversing the input list changes the bundle id, so
`computeHash(v, C) = computeHash(v, sort(dedupe(C)))` fails for unsorted `C`
(here `C = ["b","a"]`, whose sorted deduplication is `["a","b"]`). -/
theorem computeHash_order_sensitive :
    computeHash "v1" ["b", "a"] ≠ computeHash "v1" ["a", "b"] ∧
      canon ["b", "a"] = ["a", "b"] := by
  constructor
  · decide
  · decide

/-- **C7 (amended).** The bundle identification the pipeline performs —
`identify(v, C) = computeHash(v, canon(C))`, where `canon` is `scan`'s
deduplicate-and-sort — is deterministic across repeated calls and independent
of the order and duplication of the collected classes: any two collections
with the same member set, in particular `C` and `sort(dedupe(C)) = canon C`,
yield the same bundle id.  `computeHash` itself does not canonicalize; the
canonicalization happens in `scan` before hashing. -/
theorem identify_canonical (v : String) (C D : List String)
    (h : ∀ x, x ∈ C ↔ x ∈ D) :
    identify v C = identify v C ∧
      identify v C = identify v D ∧
      identify v C = identify v (canon C) := by
  refine ⟨rfl, ?_, ?_⟩
  · unfold identify
    rw [canon_eq_of_mem_iff h]
  · unfold identify
    rw [@canon_eq_of_mem_iff (canon C) C (fun x => mem_canon)]

/-- Witness for C7's amended theorem: `["b","a","a"]` and `["a","b"]` have the
same member set, and the theorem applies to them. -/
theorem identify_canonical_witness :
    (∀ x : String, x ∈ ["b", "a", "a"] ↔ x ∈ ["a", "b"]) ∧
      identify "v1" ["b", "a", "a"] = identify "v1" ["a", "b"] := by
  have h : ∀ x : String, x ∈ (["b", "a", "a"] : List String) ↔ x ∈ (["a", "b"] : List String) := by
    intro x
    simp only [List.mem_cons, List.not_mem_nil, or_false]
    tauto
  exact ⟨h, (identify_canonical "v1" ["b", "a", "a"] ["a", "b"] h).2.1⟩

/-- **C5 (counterexample).** In `swapActive`, the previously active node is
detached *first*: the very first DOM snapshot of a swap from a state with an
attached active node 0 shows no node attached at all (the new node 1 is not
yet attached, node 0 is already detached) — contradicting the claimed
create-attach-then-detach ordering with no stylesheet-less intermediate
state. -/
theorem swap_detach_first :
    (swapActive 1 swapSt).domLog = [([], [0]), ([], [0, 1]), ([1], [0, 1])] ∧
      swapSt.active = some 0 ∧ swapSt.attached = [0] := by
  exact ⟨rfl, rfl, rfl⟩

/-- **C5 (amended).** For every call to the injector's swap with an attached
active node `a` and a fresh node `el`, the steps occur in the order: detach
the previously active node, designate and attach the new node (then discard a
distinct speculative node).  Detach-before-attach: the first intermediate DOM
state of the swap contains neither the old nor the new node, and afterwards
the new node is attached and active while the old one stays detached. -/
theorem swapActive_detach_before_attach (st : St) (el a : Nat)
    (ha : st.active = some a) (hmem : a ∈ st.attached) (hnd : st.attached.Nodup)
    (hel : el ∉ st.attached) :
    ((swapActive el st).domLog.drop st.domLog.length).head? =
        some (st.attached.erase a, st.everActive) ∧
      a ∉ st.attached.erase a ∧ el ∉ st.attached.erase a ∧
      el ∈ (swapActive el st).attached ∧ (swapActive el st).active = some el ∧
      a ∉ (swapActive el st).attached := by
  have hnotmem : a ∉ st.attached.erase a := fun hc =>
    absurd (List.Nodup.mem_erase_iff hnd |>.mp hc).1 (by simp)
  have helE : el ∉ st.attached.erase a := fun hc => hel (List.erase_subset _ _ hc)
  have hne : a ≠ el := fun he => hel (he ▸ hmem)
  simp only [swapActive, swapFinish, ha, if_pos hmem]
  cases hopt : st.optimisticEl with
  | none =>
      simp only [appendNode, designateActive, removeNode, snap, hopt]
      refine ⟨?_, hnotmem, helE, ?_, trivial, ?_⟩
      · rw [List.append_assoc, List.append_assoc, List.drop_left]
        rfl
      · simp
      · simp only [List.mem_append, List.mem_singleton]
        rintro (hc | hc)
        · exact hnotmem hc
        · exact hne hc
  | some o =>
      by_cases ho : o = el
      · simp only [appendNode, designateActive, removeNode, snap, hopt, if_pos ho]
        refine ⟨?_, hnotmem, helE, ?_, trivial, ?_⟩
        · rw [List.append_assoc, List.append_assoc, List.drop_left]
          rfl
        · simp
        · simp only [List.mem_append, List.mem_singleton]
          rintro (hc | hc)
          · exact hnotmem hc
          · exact hne hc
      · by_cases hoa : o ∈ (st.attached.erase a) ++ [el]
        · simp only [appendNode, designateActive, removeNode, snap, hopt, if_neg ho,
            if_pos hoa]
          refine ⟨?_, hnotmem, helE, ?_, trivial, ?_⟩
          · rw [List.append_assoc, List.append_assoc, List.append_assoc, List.drop_left]
            rfl
          · exact List.mem_erase_of_ne (fun he => ho he.symm) |>.mpr (by simp)
          · intro hc
            have := List.erase_subset _ _ hc
            simp only [List.mem_append, List.mem_singleton] at this
            rcases this with hc2 | hc2
            · exact hnotmem hc2
            · exact hne hc2
        · simp only [appendNode, designateActive, removeNode, snap, hopt, if_neg ho,
            if_neg hoa]
          refine ⟨?_, hnotmem, helE, ?_, trivial, ?_⟩
          · rw [List.append_assoc, List.append_assoc, List.drop_left]
            rfl
          · simp
          · simp only [List.mem_append, List.mem_singleton]
            rintro (hc | hc)
            · exact hnotmem hc
            · exact hne hc

/-- Witness for C5's amended theorem at the concrete state `swapSt`. -/
theorem swapActive_detach_before_attach_witness :
    swapSt.active = some 0 ∧ 0 ∈ swapSt.attached ∧
      ((swapActive 1 swapSt).domLog.drop swapSt.domLog.length).head? =
        some (swapSt.attached.erase 0, swapSt.everActive) := by
  refine ⟨rfl, by decide, ?_⟩
  exact (swapActive_detach_before_attach swapSt 1 0 rfl (by decide) (by decide)
    (by decide)).1

/-- **C6.** `uncloak` is idempotent and observably effective at most once:
a second call is the identity, a call on an already-uncloaked state is the
identity, and a call after the bounded timer has fired changes nothing. -/
theorem uncloak_idempotent (st : St) :
    uncloakFn (uncloakFn st) = uncloakFn st ∧
      (st.uncloaked = true → uncloakFn st = st) ∧
      (st.timerActive = true → uncloakFn (step st .timerFire) = step st .timerFire) := by
  refine ⟨?_, ?_, ?_⟩
  · by_cases h : st.uncloaked <;> simp [uncloakFn, h]
  · intro h; simp [uncloakFn, h]
  · intro h
    simp only [step, if_pos h]
    by_cases hu : st.uncloaked <;> simp [uncloakFn, hu]

/-- Witness for C6 at a cloaked state with an armed timer and at the state
after its release. -/
theorem uncloak_idempotent_witness :
    uncloakedSt.uncloaked = true ∧ swapSt.timerActive = true ∧
      uncloakFn uncloakedSt = uncloakedSt ∧
      uncloakFn (step swapSt .timerFire) = step swapSt .timerFire := by
  refine ⟨rfl, rfl, ?_, ?_⟩
  · exact (uncloak_idempotent uncloakedSt).2.1 rfl
  · exact (uncloak_idempotent swapSt).2.2 rfl

/-- **C8.** When the scanned class set is empty, the resolution releases the
Visibility Gate immediately and sets `ready = true`, performing no hashing
and no network activity: the log is unchanged (no `verReq`, `hashReq`,
`compileReq` or `cssReq` entries are added) and no suspension is created. -/
theorem empty_scan_shortcut (st : St) (h : scanD st.doc = []) :
    step st .domReady = {uncloakFn st with ready := true} ∧
      (step st .domReady).uncloaked = true ∧
      (step st .domReady).ready = true ∧
      (step st .domReady).log = st.log ∧
      (step st .domReady).pendingVersion = st.pendingVersion ∧
      (step st .domReady).pendingHash = st.pendingHash ∧
      (step st .domReady).pendingCompile = st.pendingCompile ∧
      step st .rehash = step st .domReady := by
  have hstep : step st .domReady = {uncloakFn st with ready := true} := by
    simp [step, loadCall, h]
  have hyp : ∀ s : St, (uncloakFn s).uncloaked = true ∧ (uncloakFn s).log = s.log ∧
      (uncloakFn s).pendingVersion = s.pendingVersion ∧
      (uncloakFn s).pendingHash = s.pendingHash ∧
      (uncloakFn s).pendingCompile = s.pendingCompile := by
    intro s
    by_cases hu : s.uncloaked <;> simp [uncloakFn, hu]
  refine ⟨hstep, ?_, ?_, ?_, ?_, ?_, ?_, ?_⟩
  · rw [hstep]; exact (hyp st).1
  · rw [hstep]
  · rw [hstep]; exact (hyp st).2.1
  · rw [hstep]; exact (hyp st).2.2.1
  · rw [hstep]; exact (hyp st).2.2.2.1
  · rw [hstep]; exact (hyp st).2.2.2.2
  · simp [step]

/-- Witness for C8 at a concrete page with no classed elements. -/
theorem empty_scan_shortcut_witness :
    scanD (boot "/" "" [] [] []).doc = [] ∧
      (step (boot "/" "" [] [] []) .domReady).ready = true ∧
      (step (boot "/" "" [] [] []) .domReady).uncloaked = true := by
  have h : scanD (boot "/" "" [] [] []).doc = [] := rfl
  exact ⟨h, (empty_scan_shortcut _ h).2.2.1, (empty_scan_shortcut _ h).2.1⟩

/-- **C9 (counterexample).** The resolver memoizes the *resolved* token, not
the pending fetch: two `getVersion()` calls made before the first fetch
settles issue two network fetches, contradicting "all calls made before the
first fetch settles receive the same pending result (no duplicate fetches)". -/
theorem duplicate_version_fetch :
    (vrun [.call] vInit).pending = 1 ∧ (vrun [.call] vInit).token = none ∧
      (vrun [.call, .call] vInit).fetches = 2 := by
  exact ⟨rfl, rfl, rfl⟩

/-- **C9 (amended).** The Version Resolver memoizes the settled token, never
rejects, and never retries after its first settlement: once a token is
memoized, further calls are no-ops issuing no fetch; a failed fetch memoizes
the sentinel `"unknown"` (resolving successfully) without issuing a fetch,
and any later call is again a no-op.  (Only calls made while the first fetch
is still pending issue duplicate fetches; in this client the single-flight
load gate serializes `getVersion` calls, so that situation does not arise.) -/
theorem version_memoized (s : VSt) (t : String) :
    (s.token = some t → vstep s .call = s) ∧
      (0 < s.pending →
        (vstep s .settleErr).token = some "unknown" ∧
          (vstep s .settleErr).fetches = s.fetches ∧
          vstep (vstep s .settleErr) .call = vstep s .settleErr) := by
  constructor
  · intro h; simp [vstep, h]
  · intro h
    refine ⟨by simp [vstep, h], by simp [vstep, h], ?_⟩
    simp [vstep, h]

/-- Witness for C9's amended theorem: after one call and a failed settlement,
further calls change nothing. -/
theorem version_memoized_witness :
    (vrun [.call] vInit).pending = 1 ∧
      ((vrun [.call] vInit).token = some "unknown" → False) ∧
      vstep (vstep (vrun [.call] vInit) .settleErr) .call
        = vstep (vrun [.call] vInit) .settleErr := by
  refine ⟨rfl, by simp [vrun, vstep, vInit], ?_⟩
  exact ((version_memoized (vrun [.call] vInit) "unknown").2 (by decide)).2.2

theorem rframe_trans {a b c : St} (h1 : RFrame a b) (h2 : RFrame b c) : RFrame a c := by
  obtain ⟨x1, x2, x3, x4, x5, x6, x7⟩ := h1
  obtain ⟨y1, y2, y3, y4, y5, y6, y7⟩ := h2
  exact ⟨y1.trans x1, y2.trans x2, y3.trans x3, y4.trans x4, y5.trans x5, y6.trans x6,
    y7.trans x7⟩

theorem rf_swapActive (el : Nat) (st : St) : RFrame st (swapActive el st) := by
  refine ⟨?_, ?_, ?_, ?_, ?_, ?_, ?_⟩ <;>
    (simp only [swapActive, swapFinish, appendNode, designateActive, removeNode, snap]
     repeat' split) <;> rfl

theorem rf_uncloak (st : St) : RFrame st (uncloakFn st) := by
  refine ⟨?_, ?_, ?_, ?_, ?_, ?_, ?_⟩ <;>
    (simp only [uncloakFn]
     repeat' split) <;> rfl

theorem rf_injectLink (bid : String) (st : St) : RFrame st (injectLink bid st) :=
  rframe_trans (b := swapActive st.nextId
      {st with nextId := st.nextId + 1, log := st.log ++ [.cssReq bid]})
    (rf_swapActive _ _) ⟨rfl, rfl, rfl, rfl, rfl, rfl, rfl⟩

theorem rf_injectStyle (st : St) : RFrame st (injectStyle st) :=
  rframe_trans (b := swapActive st.nextId {st with nextId := st.nextId + 1})
    (rf_swapActive _ _) (rf_uncloak _)

theorem rf_ssHint (bid : String) (st : St) : RFrame st (ssHint bid st) :=
  ⟨rfl, rfl, rfl, rfl, rfl, rfl, rfl⟩

theorem rf_lsHint (bid : String) (st : St) : RFrame st (lsHint bid st) :=
  ⟨rfl, rfl, rfl, rfl, rfl, rfl, rfl⟩

theorem rf_prefetchLink (bid : String) (st : St) : RFrame st (prefetchLink bid st) :=
  ⟨rfl, rfl, rfl, rfl, rfl, rfl, rfl⟩

/-- The install-and-hint sequence of the compile handler preserves every
resolver control field. -/
theorem rf_installStore (bid : String) (css : Bool) (s : St) :
    RFrame s (if css then
        prefetchLink bid (ssHint bid (lsHint bid
          (if css then injectStyle s else injectLink bid s)))
      else ssHint bid (lsHint bid (if css then injectStyle s else injectLink bid s))) := by
  have h2 : RFrame s (if css then injectStyle s else injectLink bid s) := by
    cases css
    · exact rf_injectLink bid s
    · exact rf_injectStyle s
  have h3 := rframe_trans (rframe_trans h2 (rf_lsHint bid _)) (rf_ssHint bid _)
  cases css
  · exact h3
  · exact rframe_trans h3 (rf_prefetchLink bid _)

/-- The compile handler is `onOkJob` of a state agreeing with the input on every
resolver control field except that the compile suspension is consumed. -/
theorem compileOkJob_resolver (bid : String) (css : Bool) (st : St) :
    ∃ m : St, compileOkJob bid css st = onOkJob m ∧
      m.loading = st.loading ∧ m.needsRescan = st.needsRescan ∧
      m.versionToken = st.versionToken ∧ m.pendingVersion = st.pendingVersion ∧
      m.pendingHash = st.pendingHash ∧ m.pendingCompile = none ∧ m.doc = st.doc := by
  unfold compileOkJob
  refine ⟨_, rfl, ?_⟩
  obtain ⟨y1, y2, y3, y4, y5, y6, y7⟩ := rf_installStore bid css
    {st with
      pendingCompile := none
      log := st.log ++ [LogE.compileOk bid]
      currentId := some bid
      ready := true}
  exact ⟨y1, y2, y3, y4, y5, y6, y7⟩

set_option maxRecDepth 8000 in
/-- **C3 (counterexample).** A rescan is requested while a resolution is in
flight (`rehash` during the pending version fetch sets `needsRescan`), and
the in-flight resolution then completes with a *failed* compile: the flag is
left set and no new resolution starts (no pending suspension exists) —
contradicting "whenever the in-flight resolution completes (with any
outcome), pendingRescan is cleared and exactly one new resolution starts". -/
theorem failure_keeps_rescan_flag :
    c3run.needsRescan = true ∧ c3run.loading = false ∧
      c3run.pendingVersion = none ∧ c3run.pendingHash = none ∧
      c3run.pendingCompile = none ∧ c3run.pendingPreload = none ∧
      c3run.uncloaked = true := by
  decide

/-- **C3 (amended).** The single-flight gate holds: a resolution requested
while one is in flight only sets `needsRescan`.  When the in-flight
resolution completes *successfully*, a set flag is cleared and exactly one
new resolution starts immediately from a fresh scan of the current document;
when it completes with a *failure*, the flag is left set and no new
resolution starts (it is consumed by the next completed resolution). -/
theorem single_flight_gate (st : St) (sorted cs : List String) (ver bid : String)
    (css : Bool) :
    (st.loading = true → sorted ≠ [] →
      loadCall sorted st = {st with needsRescan := true}) ∧
    (st.pendingCompile = some cs → st.needsRescan = true →
      st.versionToken = some ver → scanD st.doc ≠ [] →
      (step st (.compileOk bid css)).needsRescan = false ∧
        (step st (.compileOk bid css)).loading = true ∧
        (step st (.compileOk bid css)).pendingHash = some (ver, scanD st.doc) ∧
        (step st (.compileOk bid css)).pendingCompile = none) ∧
    (st.pendingCompile = some cs → st.needsRescan = true →
      (step st .compileErr).needsRescan = true ∧
        (step st .compileErr).loading = false ∧
        (step st .compileErr).pendingHash = st.pendingHash ∧
        (step st .compileErr).pendingVersion = st.pendingVersion ∧
        (step st .compileErr).pendingCompile = none ∧
        (step st .compileErr).uncloaked = true) := by
  refine ⟨?_, ?_, ?_⟩
  · intro hl hs
    have : sorted.isEmpty = false := by
      cases sorted with
      | nil => exact absurd rfl hs
      | cons x xs => rfl
    simp [loadCall, this, hl]
  · intro hpc hnr hv hscan
    have hsc : (scanD st.doc).isEmpty = false := by
      cases hd : scanD st.doc with
      | nil => exact absurd hd hscan
      | cons x xs => rfl
    have hstep : step st (.compileOk bid css) = compileOkJob bid css st := by
      simp [step, hpc]
    obtain ⟨m, hm, h1, h2, h3, h4, h5, h6, h7⟩ := compileOkJob_resolver bid css st
    rw [hstep, hm]
    simp [onOkJob, loadCall, h1, h2, h3, h4, h5, h6, h7, hnr, hv, hsc]
  · intro hpc hnr
    simp only [step, hpc, Option.isSome_some, if_pos]
    simp only [onErrJob]
    by_cases hu : st.uncloaked <;> simp [uncloakFn, hu, hnr]

/-- Witness for C3's amended theorem on a concrete in-flight state. -/
theorem single_flight_gate_witness :
    (run [.domReady, .rehash, .versionErr, .hashDone]
        (boot "/" "" [] [] [["a"]])).pendingCompile = some ["a"] ∧
      (run [.domReady, .rehash, .versionErr, .hashDone]
        (boot "/" "" [] [] [["a"]])).needsRescan = true ∧
      (step (run [.domReady, .rehash, .versionErr, .hashDone]
        (boot "/" "" [] [] [["a"]])) (.compileOk "b_123" true)).needsRescan = false := by
  have h1 : (run [.domReady, .rehash, .versionErr, .hashDone]
      (boot "/" "" [] [] [["a"]])).pendingCompile = some ["a"] := by decide
  have h2 : (run [.domReady, .rehash, .versionErr, .hashDone]
      (boot "/" "" [] [] [["a"]])).needsRescan = true := by decide
  have h3 : (run [.domReady, .rehash, .versionErr, .hashDone]
      (boot "/" "" [] [] [["a"]])).versionToken = some "unknown" := by decide
  have h4 : scanD (run [.domReady, .rehash, .versionErr, .hashDone]
      (boot "/" "" [] [] [["a"]])).doc ≠ [] := by decide
  exact ⟨h1, h2, ((single_flight_gate _ [] ["a"] "unknown" "b_123" true).2.1
    h1 h2 h3 h4).1⟩

set_option maxRecDepth 8000 in
/-- **C4 (counterexample).** On the optimistic path the hints are written
before the bundle is confirmed loadable: in `c4run` the scan's hash matches
the optimistic guess while the speculative stylesheet is still loading
(`optimisticLoaded = false`, the gate still cloaked), yet both the session
and the durable hint are written — with no `cssLoaded` and no `compileOk`
for that bundle id anywhere before them in the log. -/
theorem hint_before_confirmation :
    hintsAfterConfirm [] c4run.log = false ∧
      c4run.optimisticLoaded = false ∧ c4run.uncloaked = false ∧
      c4run.log = [.cssReq bidA, .verReq, .hashReq "unknown" ["a"],
        .optMatch bidA, .hintWrite false "weft:p:/" bidA,
        .hintWrite true ("weft:" ++ bidA) bidA] := by
  refine ⟨?_, ?_, ?_, ?_⟩ <;> decide

set_option maxRecDepth 8000 in
/-- **C10.** On the known-durable path (path 3) the resolver sets
`ready = true` and `currentId` before the injected link finishes loading and
before the gate is released: `c10run` is a reachable state in which
`status()` reports `ready = true` with the computed bundle id while the
document is still cloaked and the link's load is still pending. -/
theorem ready_while_cloaked :
    statusOf c10run = (some bidA, some "unknown", true) ∧
      c10run.uncloaked = false ∧ c10run.cloakAttached = true ∧
      c10run.pendingLinks = [(0, bidA)] := by
  refine ⟨?_, ?_, ?_, ?_⟩ <;> decide

theorem length_le_one_of_eq {l : List Nat} (hnd : l.Nodup) (a : Nat)
    (h : ∀ x ∈ l, x = a) : l.length ≤ 1 := by
  match l with
  | [] => simp
  | [x] => simp
  | x :: y :: r =>
      exfalso
      have hx := h x (by simp)
      have hy := h y (by simp)
      rw [List.nodup_cons] at hnd
      have hxy : x = y := hx.trans hy.symm
      exact hnd.1 (by rw [hxy]; exact List.mem_cons_self y r)

theorem cnt_le_one {att ev : List Nat} {act : Option Nat}
    (hA : ∀ n ∈ att, n ∈ ev → act = some n) (hnd : att.Nodup) :
    cntA att ev ≤ 1 := by
  unfold cntA
  cases act with
  | none =>
      have hnil : att.filter (fun n => decide (n ∈ ev)) = [] := by
        rw [List.filter_eq_nil_iff]
        intro n hn hdec
        exact Option.noConfusion (hA n hn (of_decide_eq_true hdec))
      simp [hnil]
  | some a =>
      refine length_le_one_of_eq (List.Nodup.filter _ hnd) a ?_
      intro x hx
      rw [List.mem_filter] at hx
      have h2 := hA x hx.1 (of_decide_eq_true hx.2)
      exact (Option.some.inj h2).symm

theorem cntA_append_not_mem {l ev : List Nat} {x : Nat} (hx : x ∉ ev) :
    cntA (l ++ [x]) ev = cntA l ev := by
  simp [cntA, List.filter_append, hx]

theorem cntA_erase_le (l ev : List Nat) (x : Nat) :
    cntA (l.erase x) ev ≤ cntA l ev :=
  List.Sublist.length_le (List.Sublist.filter _ (List.erase_sublist x l))

/-- Invariance under projection: `Inv` depends only on the injector fields;
states agreeing on them (with
a possibly larger allocator) share it. -/
theorem inv_of_proj {b : St} (a : St) (h : Inv a)
    (h1 : b.attached = a.attached) (h2 : b.everActive = a.everActive)
    (h3 : b.active = a.active) (h4 : b.optimisticEl = a.optimisticEl)
    (h6 : b.domLog = a.domLog) (h5 : a.nextId ≤ b.nextId) : Inv b := by
  obtain ⟨hA, hB, hOA, hnd, hattLt, hevLt, hlog⟩ := h
  constructor
  · rw [h1, h2, h3]; exact hA
  · rw [h4, h3]; exact hB
  · rw [h4, h1]; exact hOA
  · rw [h1]; exact hnd
  · rw [h1]; exact fun n hn => Nat.lt_of_lt_of_le (hattLt n hn) h5
  · rw [h2]; exact fun n hn => Nat.lt_of_lt_of_le (hevLt n hn) h5
  · rw [h6]; exact hlog

theorem inv_uncloak {st : St} (hI : Inv st) : Inv (uncloakFn st) := by
  by_cases h : st.uncloaked
  · simpa [uncloakFn, h] using hI
  · simp only [uncloakFn, h, Bool.false_eq_true, if_false]
    exact inv_of_proj st hI rfl rfl rfl rfl rfl (Nat.le_refl _)

theorem inv_swapFinish {s : St} {el : Nat}
    (hClean : ∀ n ∈ s.attached, n ∉ s.everActive)
    (hOptA : ∀ o, s.optimisticEl = some o → o ∈ s.attached)
    (hnd : s.attached.Nodup)
    (hat : el ∉ s.attached)
    (hattLt : ∀ n ∈ s.attached, n < s.nextId)
    (hevLt : ∀ n ∈ s.everActive, n < s.nextId)
    (hlt : el < s.nextId)
    (hlog : ∀ e ∈ s.domLog, cntA e.1 e.2 ≤ 1) :
    Inv (swapFinish el s) := by
  have hAU2 : ∀ n ∈ s.attached ++ [el], n ∈ s.everActive ++ [el] →
      (some el : Option Nat) = some n := by
    intro n hn h2
    rcases List.mem_append.mp hn with h3 | h3
    · rcases List.mem_append.mp h2 with h4 | h4
      · exact absurd h4 (hClean n h3)
      · simp only [List.mem_singleton] at h4
        exact absurd (h4 ▸ h3) hat
    · simp only [List.mem_singleton] at h3
      rw [h3]
  have hnd2 : (s.attached ++ [el]).Nodup := by
    rw [List.nodup_append]
    refine ⟨hnd, List.nodup_singleton el, ?_⟩
    intro a ha hb
    simp only [List.mem_singleton] at hb
    exact hat (hb ▸ ha)
  have hcnt1 : cntA s.attached (s.everActive ++ [el]) ≤ 1 := by
    refine @cnt_le_one _ _ none ?_ hnd
    intro n hn h2
    exfalso
    rcases List.mem_append.mp h2 with h4 | h4
    · exact hClean n hn h4
    · simp only [List.mem_singleton] at h4
      exact hat (h4 ▸ hn)
  have hcnt2 : cntA (s.attached ++ [el]) (s.everActive ++ [el]) ≤ 1 :=
    cnt_le_one hAU2 hnd2
  have hattLt2 : ∀ n ∈ s.attached ++ [el], n < s.nextId := by
    intro n hn
    rcases List.mem_append.mp hn with h3 | h3
    · exact hattLt n h3
    · simp only [List.mem_singleton] at h3
      exact h3 ▸ hlt
  have hevLt2 : ∀ n ∈ s.everActive ++ [el], n < s.nextId := by
    intro n hn
    rcases List.mem_append.mp hn with h3 | h3
    · exact hevLt n h3
    · simp only [List.mem_singleton] at h3
      exact h3 ▸ hlt
  cases hopt : s.optimisticEl with
  | none =>
      simp only [swapFinish, appendNode, designateActive, snap, hopt]
      constructor
      · exact hAU2
      · intro o ho
        exact Option.noConfusion ho
      · intro o ho
        exact Option.noConfusion ho
      · exact hnd2
      · exact hattLt2
      · exact hevLt2
      · intro e he
        simp only [List.append_assoc, List.mem_append, List.mem_singleton] at he
        rcases he with he | he | he
        · exact hlog e he
        · rw [he]; exact hcnt1
        · rw [he]; exact hcnt2
  | some o =>
      have ho_mem : o ∈ s.attached := hOptA o hopt
      have ho_ne : ¬ o = el := fun he => hat (he ▸ ho_mem)
      have ho_mem2 : o ∈ s.attached ++ [el] := List.mem_append.mpr (Or.inl ho_mem)
      simp only [swapFinish, appendNode, designateActive, snap, hopt, if_neg ho_ne,
        if_pos ho_mem2, removeNode]
      constructor
      · intro n hn h2
        exact hAU2 n (List.erase_subset _ _ hn) h2
      · intro o2 ho2
        exact Option.noConfusion ho2
      · intro o2 ho2
        exact Option.noConfusion ho2
      · exact List.Nodup.erase o hnd2
      · intro n hn
        exact hattLt2 n (List.erase_subset _ _ hn)
      · exact hevLt2
      · intro e he
        simp only [List.append_assoc, List.mem_append, List.mem_singleton] at he
        rcases he with he | he | he | he
        · exact hlog e he
        · rw [he]; exact hcnt1
        · rw [he]; exact hcnt2
        · rw [he]
          exact Nat.le_trans (cntA_erase_le _ _ _) hcnt2

theorem inv_swapActive {st : St} {el : Nat} (hI : Inv st)
    (hat : el ∉ st.attached) (hlt : el < st.nextId) :
    Inv (swapActive el st) := by
  obtain ⟨hA, hB, hOA, hnd, hattLt, hevLt, hlog⟩ := hI
  unfold swapActive
  cases hact : st.active with
  | none =>
      have hClean : ∀ n ∈ st.attached, n ∉ st.everActive := by
        intro n hn hev2
        have h2 := hA n hn hev2
        rw [hact] at h2
        exact Option.noConfusion h2
      exact inv_swapFinish hClean hOA hnd hat hattLt hevLt hlt hlog
  | some a =>
      by_cases hmem : a ∈ st.attached
      · simp only [if_pos hmem, removeNode, snap]
        refine inv_swapFinish ?_ ?_ (List.Nodup.erase a hnd) ?_ ?_ hevLt hlt ?_
        · intro n hn hev2
          have hn2 := (List.Nodup.mem_erase_iff hnd).mp hn
          have h2 := hA n hn2.2 hev2
          rw [hact] at h2
          exact hn2.1 (Option.some.inj h2).symm
        · intro o ho
          have h2 := hB o ho
          rw [hact] at h2
          exact Option.noConfusion h2
        · intro hmem2
          exact hat (List.erase_subset _ _ hmem2)
        · intro n hn
          exact hattLt n (List.erase_subset _ _ hn)
        · intro e he
          simp only [List.mem_append, List.mem_singleton] at he
          rcases he with he | he
          · exact hlog e he
          · rw [he]
            refine @cnt_le_one _ _ none ?_ (List.Nodup.erase a hnd)
            intro n hn hev2
            exfalso
            have hn2 := (List.Nodup.mem_erase_iff hnd).mp hn
            have h2 := hA n hn2.2 hev2
            rw [hact] at h2
            exact hn2.1 (Option.some.inj h2).symm
      · simp only [if_neg hmem]
        have hClean : ∀ n ∈ st.attached, n ∉ st.everActive := by
          intro n hn hev2
          have h2 := hA n hn hev2
          rw [hact] at h2
          exact hmem ((Option.some.inj h2) ▸ hn)
        exact inv_swapFinish hClean hOA hnd hat hattLt hevLt hlt hlog

theorem inv_injectLink {st : St} (bid : String) (hI : Inv st) :
    Inv (injectLink bid st) := by
  unfold injectLink
  have hI1 : Inv {st with nextId := st.nextId + 1, log := st.log ++ [.cssReq bid]} :=
    inv_of_proj st hI rfl rfl rfl rfl rfl (Nat.le_succ _)
  have hat : st.nextId ∉ st.attached := fun h => absurd (hI.attLt _ h) (Nat.lt_irrefl _)
  have h2 := inv_swapActive hI1 hat (Nat.lt_succ_self _)
  exact inv_of_proj _ h2 rfl rfl rfl rfl rfl (Nat.le_refl _)

theorem inv_injectStyle {st : St} (hI : Inv st) : Inv (injectStyle st) := by
  unfold injectStyle
  have hI1 : Inv {st with nextId := st.nextId + 1} :=
    inv_of_proj st hI rfl rfl rfl rfl rfl (Nat.le_succ _)
  have hat : st.nextId ∉ st.attached := fun h => absurd (hI.attLt _ h) (Nat.lt_irrefl _)
  exact inv_uncloak (inv_swapActive hI1 hat (Nat.lt_succ_self _))

theorem inv_prefetchLink {st : St} (bid : String) (hI : Inv st) :
    Inv (prefetchLink bid st) := by
  unfold prefetchLink appendNode snap
  have hat : st.nextId ∉ st.attached := fun h => absurd (hI.attLt _ h) (Nat.lt_irrefl _)
  have hev : st.nextId ∉ st.everActive := fun h => absurd (hI.evLt _ h) (Nat.lt_irrefl _)
  obtain ⟨hA, hB, hOA, hnd, hattLt, hevLt, hlog⟩ := hI
  constructor
  · intro n hn h2
    rcases List.mem_append.mp hn with h3 | h3
    · exact hA n h3 h2
    · simp only [List.mem_singleton] at h3
      exact absurd (h3 ▸ h2) hev
  · exact hB
  · intro o ho
    exact List.mem_append.mpr (Or.inl (hOA o ho))
  · rw [List.nodup_append]
    refine ⟨hnd, List.nodup_singleton _, ?_⟩
    intro a ha hb
    simp only [List.mem_singleton] at hb
    exact hat (hb ▸ ha)
  · intro n hn
    rcases List.mem_append.mp hn with h3 | h3
    · exact Nat.lt_succ_of_lt (hattLt n h3)
    · simp only [List.mem_singleton] at h3
      exact h3 ▸ Nat.lt_succ_self _
  · intro n hn
    exact Nat.lt_succ_of_lt (hevLt n hn)
  · intro e he
    simp only [List.mem_append, List.mem_singleton] at he
    rcases he with he | he
    · exact hlog e he
    · rw [he, cntA_append_not_mem hev]
      exact cnt_le_one hA hnd

theorem inv_promote {st : St} {o : Nat} (hI : Inv st) (hopt : st.optimisticEl = some o) :
    Inv {designateActive o st with optimisticEl := none} := by
  obtain ⟨hA, hB, hOA, hnd, hattLt, hevLt, hlog⟩ := hI
  have hactN : st.active = none := hB o hopt
  have ho : o ∈ st.attached := hOA o hopt
  have key : ∀ n ∈ st.attached, n ∈ st.everActive ++ [o] →
      (some o : Option Nat) = some n := by
    intro n hn h2
    rcases List.mem_append.mp h2 with h3 | h3
    · have h4 := hA n hn h3
      rw [hactN] at h4
      exact Option.noConfusion h4
    · simp only [List.mem_singleton] at h3
      rw [h3]
  simp only [designateActive, snap]
  constructor
  · exact key
  · intro o2 ho2
    exact Option.noConfusion ho2
  · intro o2 ho2
    exact Option.noConfusion ho2
  · exact hnd
  · exact hattLt
  · intro n hn
    rcases List.mem_append.mp hn with h3 | h3
    · exact hevLt n h3
    · simp only [List.mem_singleton] at h3
      exact h3 ▸ hattLt o ho
  · intro e he
    simp only [List.mem_append, List.mem_singleton] at he
    rcases he with he | he
    · exact hlog e he
    · rw [he]
      exact cnt_le_one key hnd

theorem inv_loadCall {st : St} (sorted : List String) (hI : Inv st) :
    Inv (loadCall sorted st) := by
  unfold loadCall
  by_cases h1 : sorted.isEmpty
  · simp only [h1, if_true]
    exact inv_of_proj (uncloakFn st) (inv_uncloak hI) rfl rfl rfl rfl rfl (Nat.le_refl _)
  · simp only [h1, Bool.false_eq_true, if_false]
    by_cases h2 : st.loading
    · simp only [h2, if_true]
      exact inv_of_proj st hI rfl rfl rfl rfl rfl (Nat.le_refl _)
    · simp only [h2, Bool.false_eq_true, if_false]
      cases hv : st.versionToken <;>
        exact inv_of_proj st hI rfl rfl rfl rfl rfl (Nat.le_refl _)

theorem inv_onOk {st : St} (hI : Inv st) : Inv (onOkJob st) := by
  unfold onOkJob
  by_cases h : st.needsRescan
  · simp only [h, if_true]
    exact inv_loadCall _ (inv_of_proj st hI rfl rfl rfl rfl rfl (Nat.le_refl _))
  · simp only [h, Bool.false_eq_true, if_false]
    exact inv_of_proj st hI rfl rfl rfl rfl rfl (Nat.le_refl _)

theorem inv_ssHint {st : St} (bid : String) (hI : Inv st) : Inv (ssHint bid st) :=
  inv_of_proj st hI rfl rfl rfl rfl rfl (Nat.le_refl _)

theorem inv_lsHint {st : St} (bid : String) (hI : Inv st) : Inv (lsHint bid st) :=
  inv_of_proj st hI rfl rfl rfl rfl rfl (Nat.le_refl _)

theorem inv_pathRest {st : St} (bid : String) (sorted : List String) (hI : Inv st) :
    Inv (pathRest bid sorted st) := by
  unfold pathRest
  by_cases h1 : st.currentId = some bid
  · simp only [h1, if_true]
    exact inv_onOk (inv_uncloak (inv_of_proj st hI rfl rfl rfl rfl rfl (Nat.le_refl _)))
  · simp only [h1, if_false]
    by_cases h2 : (sGet st.locl ("weft:" ++ bid)).isSome
    · simp only [h2, if_true]
      exact inv_onOk (inv_injectLink bid (inv_ssHint bid
        (inv_of_proj st hI rfl rfl rfl rfl rfl (Nat.le_refl _))))
    · simp only [h2, Bool.false_eq_true, if_false]
      exact inv_of_proj st hI rfl rfl rfl rfl rfl (Nat.le_refl _)

theorem inv_hashJob {st0 : St} (ver : String) (sorted : List String) (hI : Inv st0) :
    Inv (hashJob ver sorted st0) := by
  unfold hashJob
  cases hopt : st0.optimisticEl with
  | none =>
      simp only [hopt]
      exact inv_pathRest _ _ (inv_of_proj st0 hI rfl rfl rfl hopt.symm rfl (Nat.le_refl _))
  | some o =>
      simp only [hopt]
      split
      · refine inv_onOk ?_
        have hI2 : Inv ({st0 with
            pendingHash := none
            optimisticEl := some o
            currentId := some (computeHash ver sorted)
            ready := true
            log := st0.log ++ [.optMatch (computeHash ver sorted)]} : St) :=
          inv_of_proj st0 hI rfl rfl rfl hopt.symm rfl (Nat.le_refl _)
        have hI4 := inv_lsHint (computeHash ver sorted)
          (inv_ssHint (computeHash ver sorted) (inv_promote hI2 rfl))
        split
        · exact inv_uncloak hI4
        · exact hI4
      · exact inv_pathRest _ _ (inv_of_proj st0 hI rfl rfl rfl hopt.symm rfl (Nat.le_refl _))

theorem inv_compileOk {st : St} (bid : String) (css : Bool) (hI : Inv st) :
    Inv (compileOkJob bid css st) := by
  unfold compileOkJob
  have hI1 : Inv ({st with pendingCompile := none, log := st.log ++ [LogE.compileOk bid], currentId := some bid, ready := true} : St) :=
    inv_of_proj st hI rfl rfl rfl rfl rfl (Nat.le_refl _)
  refine inv_onOk ?_
  by_cases hc : css
  · simp only [hc, if_true]
    exact inv_prefetchLink _ (inv_ssHint _ (inv_lsHint _ (inv_injectStyle hI1)))
  · simp only [hc, Bool.false_eq_true, if_false]
    exact inv_ssHint _ (inv_lsHint _ (inv_injectLink _ hI1))

theorem inv_step (st : St) (e : Ev) (hI : Inv st) : Inv (step st e) := by
  cases e with
  | domReady => exact inv_loadCall _ hI
  | rehash => exact inv_loadCall _ hI
  | mutate d => exact inv_of_proj st hI rfl rfl rfl rfl rfl (Nat.le_refl _)
  | timerFire =>
      simp only [step]
      by_cases h : st.timerActive
      · simp only [h, if_true]
        exact inv_uncloak hI
      · simp only [h, Bool.false_eq_true, if_false]
        exact hI
  | optOk =>
      simp only [step]
      by_cases h : st.optPending
      · simp only [h, if_true]
        unfold optOkJob
        cases hoid : st.optimisticId with
        | none => exact hI
        | some oid =>
            simp only [hoid]
            split
            · exact inv_uncloak (inv_of_proj st hI rfl rfl rfl rfl rfl (Nat.le_refl _))
            · exact inv_of_proj st hI rfl rfl rfl rfl rfl (Nat.le_refl _)
      · simp only [h, Bool.false_eq_true, if_false]
        exact hI
  | optErr =>
      simp only [step]
      by_cases h : st.optPending
      · simp only [h, if_true]
        unfold optErrJob
        obtain ⟨hA, hB, hOA, hnd, hattLt, hevLt, hlog⟩ := hI
        exact ⟨hA, fun o ho => Option.noConfusion ho, fun o ho => Option.noConfusion ho,
          hnd, hattLt, hevLt, hlog⟩
      · simp only [h, Bool.false_eq_true, if_false]
        exact hI
  | versionOk v =>
      simp only [step]
      cases st.pendingVersion with
      | none => exact hI
      | some sorted => exact inv_of_proj st hI rfl rfl rfl rfl rfl (Nat.le_refl _)
  | versionErr =>
      simp only [step]
      cases st.pendingVersion with
      | none => exact hI
      | some sorted => exact inv_of_proj st hI rfl rfl rfl rfl rfl (Nat.le_refl _)
  | hashDone =>
      simp only [step]
      cases st.pendingHash with
      | none => exact hI
      | some p => exact inv_hashJob p.1 p.2 hI
  | compileOk bid css =>
      simp only [step]
      by_cases h : st.pendingCompile.isSome
      · simp only [h, if_true]
        exact inv_compileOk bid css hI
      · simp only [h, Bool.false_eq_true, if_false]
        exact hI
  | compileErr =>
      simp only [step]
      by_cases h : st.pendingCompile.isSome
      · simp only [h, if_true]
        exact inv_uncloak (inv_of_proj st hI rfl rfl rfl rfl rfl (Nat.le_refl _))
      · simp only [h, Bool.false_eq_true, if_false]
        exact hI
  | linkDone n bid ok =>
      simp only [step]
      unfold linkDoneJob
      by_cases h : (n, bid) ∈ st.pendingLinks
      · simp only [h, if_true]
        exact inv_uncloak (inv_of_proj st hI rfl rfl rfl rfl rfl (Nat.le_refl _))
      · simp only [h, if_false]
        exact hI
  | preloadCall classes =>
      simp only [step]
      unfold preloadCallJob
      by_cases h : classes.isEmpty
      · simp only [h, if_true]
        exact hI
      · simp only [h, Bool.false_eq_true, if_false]
        exact inv_of_proj st hI rfl rfl rfl rfl rfl (Nat.le_refl _)
  | preloadOk bid =>
      simp only [step]
      by_cases h : st.pendingPreload.isSome
      · simp only [h, if_true]
        exact inv_lsHint _ (inv_of_proj st hI rfl rfl rfl rfl rfl (Nat.le_refl _))
      · simp only [h, Bool.false_eq_true, if_false]
        exact hI
  | preloadErr =>
      simp only [step]
      exact inv_of_proj st hI rfl rfl rfl rfl rfl (Nat.le_refl _)

theorem inv_boot (pathname search : String) (sess locl : List (String × String))
    (doc : List (List String)) : Inv (boot pathname search sess locl doc) := by
  unfold boot
  cases h : sGet sess ("weft:p:" ++ pathname ++ search) with
  | none =>
      simp only [h]
      constructor <;> simp
  | some oid =>
      simp only [h, appendNode, snap]
      constructor
      · intro n hn h2
        simp at h2
      · intro o ho
        rfl
      · intro o ho
        simp only [Option.some.injEq] at ho
        simp [← ho]
      · simp
      · intro n hn
        simp at hn
        subst hn
        exact Nat.zero_lt_one
      · intro n hn
        simp at hn
      · intro e he
        simp only [List.nil_append, List.mem_singleton] at he
        rw [he]
        simp [cntA]

theorem inv_run (evs : List Ev) (st : St) (hI : Inv st) : Inv (run evs st) := by
  induction evs generalizing st with
  | nil => exact hI
  | cons e es ih => exact ih _ (inv_step st e hI)

set_option maxRecDepth 2000 in
/-- **C2.** After any boot and any event sequence — initial load, rehashes,
observer rescans, optimistic promotion, compiles, failures — at most one
(ever-)active stylesheet node is attached: the final configuration has at
most one, and every intermediate DOM snapshot recorded during swaps
(including the states between the micro-steps of `swapActive`) has at most
one; never two, even mid-swap. -/
theorem at_most_one_active (pathname search : String)
    (sess locl : List (String × String)) (doc : List (List String))
    (evs : List Ev) :
    cntA (run evs (boot pathname search sess locl doc)).attached
        (run evs (boot pathname search sess locl doc)).everActive ≤ 1 ∧
      ∀ e ∈ (run evs (boot pathname search sess locl doc)).domLog,
        cntA e.1 e.2 ≤ 1 := by
  have hI := inv_run evs _ (inv_boot pathname search sess locl doc)
  exact ⟨cnt_le_one hI.actUnique hI.nodup, hI.logOK⟩

set_option maxRecDepth 8000 in
/-- Witness for C2 on the concrete path-3 run `c10run`, whose DOM log
contains the mid-swap snapshot `([], [0])` (new node designated, nothing yet
attached): the theorem bounds that snapshot. -/
theorem at_most_one_active_witness :
    (([], [0]) : List Nat × List Nat) ∈ c10run.domLog ∧ cntA [] [0] ≤ 1 := by
  refine ⟨by decide, ?_⟩
  exact (at_most_one_active "/" "" [] [("weft:" ++ bidA, "1")] [["a"]]
    [.domReady, .versionErr, .hashDone]).2 ([], [0]) (by decide)

theorem hintsJustified_append (l1 : List LogE) :
    ∀ (seen : List String) (l2 : List LogE),
      hintsJustified seen (l1 ++ l2)
        = (hintsJustified seen l1 && hintsJustified (collectJ seen l1) l2) := by
  induction l1 with
  | nil => intro seen l2; simp [hintsJustified, collectJ]
  | cons e rest ih =>
      intro seen l2
      cases e <;> simp [hintsJustified, collectJ, ih, Bool.and_assoc]

theorem collectJ_mem {i : String} : ∀ {seen : List String} (B : List LogE),
    i ∈ seen → i ∈ collectJ seen B := by
  intro seen B
  induction B generalizing seen with
  | nil => exact id
  | cons e rest ih =>
      intro hi
      cases e <;> simp only [collectJ] <;>
        first
          | exact ih hi
          | exact ih (List.mem_cons_of_mem _ hi)

theorem je_of_log_eq {a b : St} (ids : List String) (h : b.log = a.log) :
    JustExt ids a b :=
  ⟨[], by simp [h], fun _ _ => rfl⟩

theorem justext_trans {ids : List String} {a b c : St}
    (h1 : JustExt ids a b) (h2 : JustExt ids b c) : JustExt ids a c := by
  obtain ⟨B1, hB1, hg1⟩ := h1
  obtain ⟨B2, hB2, hg2⟩ := h2
  refine ⟨B1 ++ B2, by rw [hB2, hB1, List.append_assoc], ?_⟩
  intro seen hseen
  rw [hintsJustified_append, hg1 seen hseen, hg2 (collectJ seen B1)
    (fun i hi => collectJ_mem B1 (hseen i hi))]
  rfl

/-- Prepending a justifying entry for `bid` discharges `bid` for the rest. -/
theorem JustExt.push {ids : List String} {a b c : St} {bid : String} {e : LogE}
    (he : e = LogE.optMatch bid ∨ e = LogE.compileOk bid ∨ e = LogE.durableFound bid)
    (hb : b.log = a.log ++ [e])
    (h2 : JustExt (bid :: ids) b c) : JustExt ids a c := by
  obtain ⟨B2, hB2, hg⟩ := h2
  refine ⟨e :: B2, by rw [hB2, hb, List.append_assoc]; rfl, ?_⟩
  intro seen hseen
  have hrec : hintsJustified (bid :: seen) B2 = true := by
    refine hg (bid :: seen) ?_
    intro i hi
    rcases List.mem_cons.mp hi with rfl | hi
    · exact List.mem_cons_self _ _
    · exact List.mem_cons_of_mem _ (hseen i hi)
  rcases he with rfl | rfl | rfl <;> simpa [hintsJustified] using hrec

theorem log_swapActive (el : Nat) (st : St) : (swapActive el st).log = st.log := by
  simp only [swapActive, swapFinish, appendNode, designateActive, removeNode, snap]
  repeat' split
  all_goals rfl

theorem log_uncloak (st : St) : (uncloakFn st).log = st.log := by
  unfold uncloakFn
  split
  · rfl
  · rfl

theorem je_loadCall (ids : List String) (sorted : List String) (st : St) :
    JustExt ids st (loadCall sorted st) := by
  unfold loadCall
  by_cases h1 : sorted.isEmpty
  · simp only [h1, if_true]
    exact je_of_log_eq ids (log_uncloak st)
  · simp only [h1, Bool.false_eq_true, if_false]
    by_cases h2 : st.loading
    · simp only [h2, if_true]
      exact je_of_log_eq ids rfl
    · simp only [h2, Bool.false_eq_true, if_false]
      cases hv : st.versionToken with
      | some v =>
          exact ⟨[.hashReq v sorted], rfl, fun seen _ => by simp [hintsJustified]⟩
      | none =>
          exact ⟨[.verReq], rfl, fun seen _ => by simp [hintsJustified]⟩

theorem je_onOk (ids : List String) (st : St) : JustExt ids st (onOkJob st) := by
  unfold onOkJob
  by_cases h : st.needsRescan
  · simp only [h, if_true]
    exact justext_trans (je_of_log_eq ids rfl) (je_loadCall ids _ _)
  · simp only [h, Bool.false_eq_true, if_false]
    exact je_of_log_eq ids rfl

theorem je_ssHint {ids : List String} {bid : String} (st : St) (hmem : bid ∈ ids) :
    JustExt ids st (ssHint bid st) := by
  refine ⟨[.hintWrite false st.pageKey bid], rfl, ?_⟩
  intro seen hseen
  simp only [hintsJustified, Bool.and_eq_true]
  refine ⟨?_, trivial⟩
  simpa using hseen bid hmem

theorem je_lsHint {ids : List String} {bid : String} (st : St) (hmem : bid ∈ ids) :
    JustExt ids st (lsHint bid st) := by
  refine ⟨[.hintWrite true ("weft:" ++ bid) bid], rfl, ?_⟩
  intro seen hseen
  simp only [hintsJustified, Bool.and_eq_true]
  refine ⟨?_, trivial⟩
  simpa using hseen bid hmem

theorem je_injectLink (ids : List String) (bid : String) (st : St) :
    JustExt ids st (injectLink bid st) := by
  unfold injectLink
  refine justext_trans (b := {st with
    nextId := st.nextId + 1
    log := st.log ++ [.cssReq bid]}) ?_ ?_
  · exact ⟨[.cssReq bid], rfl, fun seen _ => by simp [hintsJustified]⟩
  · refine justext_trans (je_of_log_eq ids (log_swapActive st.nextId _)) ?_
    exact je_of_log_eq ids rfl

theorem je_injectStyle (ids : List String) (st : St) :
    JustExt ids st (injectStyle st) := by
  unfold injectStyle
  refine justext_trans (b := swapActive st.nextId {st with nextId := st.nextId + 1})
    (je_of_log_eq ids (log_swapActive _ _)) ?_
  exact je_of_log_eq ids (log_uncloak _)

theorem je_prefetchLink (ids : List String) (bid : String) (st : St) :
    JustExt ids st (prefetchLink bid st) := by
  unfold prefetchLink appendNode snap
  exact ⟨[.cssReq bid], rfl, fun seen _ => by simp [hintsJustified]⟩

/-- The compile handler's install-hints-prefetch sequence, justified once
`bid` is. -/
theorem je_install (bid : String) (css : Bool) (s : St) :
    JustExt [bid] s (if css then
        prefetchLink bid (ssHint bid (lsHint bid
          (if css then injectStyle s else injectLink bid s)))
      else ssHint bid (lsHint bid (if css then injectStyle s else injectLink bid s))) := by
  have h2 : JustExt [bid] s (if css then injectStyle s else injectLink bid s) := by
    cases css
    · exact je_injectLink _ bid s
    · exact je_injectStyle _ s
  have h3 := justext_trans (justext_trans h2 (je_lsHint _ (List.mem_cons_self _ _)))
    (je_ssHint _ (List.mem_cons_self _ _))
  cases css
  · exact h3
  · exact justext_trans h3 (je_prefetchLink _ bid _)

/-- Path 1's hint writes and deferred uncloak, justified once `bid` is. -/
theorem je_finishPath1 (bid : String) (s : St) :
    JustExt [bid] s (onOkJob (if (lsHint bid (ssHint bid s)).optimisticLoaded then
      uncloakFn (lsHint bid (ssHint bid s)) else lsHint bid (ssHint bid s))) := by
  refine justext_trans ?_ (je_onOk [bid] _)
  have h3 : JustExt [bid] s (lsHint bid (ssHint bid s)) :=
    justext_trans (je_ssHint _ (List.mem_cons_self _ _))
      (je_lsHint _ (List.mem_cons_self _ _))
  by_cases h : (lsHint bid (ssHint bid s)).optimisticLoaded
  · simp only [h, if_true]
    exact justext_trans h3 (je_of_log_eq _ (log_uncloak _))
  · simp only [h, Bool.false_eq_true, if_false]
    exact h3

theorem je_pathRest (bid : String) (sorted : List String) (st : St) :
    JustExt [] st (pathRest bid sorted st) := by
  unfold pathRest
  by_cases h1 : st.currentId = some bid
  · rw [if_pos h1]
    refine justext_trans (b := {st with ready := true}) (je_of_log_eq [] rfl) ?_
    exact justext_trans (je_of_log_eq [] (log_uncloak _)) (je_onOk [] _)
  · rw [if_neg h1]
    by_cases h2 : (sGet st.locl ("weft:" ++ bid)).isSome
    · simp only [h2, if_true]
      refine JustExt.push (Or.inr (Or.inr rfl))
        (b := {st with
          currentId := some bid
          ready := true
          log := st.log ++ [.durableFound bid]}) rfl ?_
      refine justext_trans (je_ssHint _ (List.mem_cons_self _ _)) ?_
      exact justext_trans (je_injectLink _ bid _) (je_onOk _ _)
    · simp only [h2, Bool.false_eq_true, if_false]
      exact ⟨[.compileReq sorted], rfl, fun seen _ => by simp [hintsJustified]⟩

theorem je_hashJob (ver : String) (sorted : List String) (st0 : St) :
    JustExt [] st0 (hashJob ver sorted st0) := by
  unfold hashJob
  cases hopt : st0.optimisticEl with
  | none =>
      simp only [hopt]
      exact justext_trans (je_of_log_eq [] rfl) (je_pathRest _ _ _)
  | some o =>
      simp only [hopt]
      split
      · refine JustExt.push (Or.inl rfl)
          (b := {st0 with
            pendingHash := none
            currentId := some (computeHash ver sorted)
            ready := true
            log := st0.log ++ [.optMatch (computeHash ver sorted)]}) rfl ?_
        exact justext_trans (je_of_log_eq _ rfl) (je_finishPath1 _ _)
      · exact justext_trans (je_of_log_eq [] rfl) (je_pathRest _ _ _)

theorem je_compileOk (bid : String) (css : Bool) (st : St) :
    JustExt [] st (compileOkJob bid css st) := by
  unfold compileOkJob
  refine JustExt.push (Or.inr (Or.inl rfl))
    (b := {st with
      pendingCompile := none
      log := st.log ++ [LogE.compileOk bid]}) rfl ?_
  refine justext_trans (b := {st with
      pendingCompile := none
      log := st.log ++ [LogE.compileOk bid]
      currentId := some bid
      ready := true}) (je_of_log_eq _ rfl) ?_
  exact justext_trans (je_install bid css _) (je_onOk _ _)

theorem je_step (st : St) (e : Ev) : JustExt [] st (step st e) := by
  cases e with
  | domReady => exact je_loadCall [] _ _
  | rehash => exact je_loadCall [] _ _
  | mutate d => exact je_of_log_eq [] rfl
  | timerFire =>
      simp only [step]
      by_cases h : st.timerActive
      · simp only [h, if_true]
        exact je_of_log_eq [] (log_uncloak _)
      · simp only [h, Bool.false_eq_true, if_false]
        exact je_of_log_eq [] rfl
  | optOk =>
      simp only [step]
      by_cases h : st.optPending
      · simp only [h, if_true]
        unfold optOkJob
        cases hoid : st.optimisticId with
        | none => exact je_of_log_eq [] rfl
        | some oid =>
            simp only [hoid]
            refine justext_trans (b := {st with
                optPending := false
                optimisticLoaded := true
                log := st.log ++ [.cssLoaded oid]}) ?_ ?_
            · exact ⟨[.cssLoaded oid], rfl, fun seen _ => by simp [hintsJustified]⟩
            · split
              · exact je_of_log_eq [] (log_uncloak _)
              · exact je_of_log_eq [] rfl
      · simp only [h, Bool.false_eq_true, if_false]
        exact je_of_log_eq [] rfl
  | optErr =>
      simp only [step]
      by_cases h : st.optPending
      · simp only [h, if_true]
        exact je_of_log_eq [] rfl
      · simp only [h, Bool.false_eq_true, if_false]
        exact je_of_log_eq [] rfl
  | versionOk v =>
      simp only [step]
      cases st.pendingVersion with
      | none => exact je_of_log_eq [] rfl
      | some sorted =>
          exact ⟨[.hashReq v sorted], rfl, fun seen _ => by simp [hintsJustified]⟩
  | versionErr =>
      simp only [step]
      cases st.pendingVersion with
      | none => exact je_of_log_eq [] rfl
      | some sorted =>
          exact ⟨[.hashReq "unknown" sorted], rfl, fun seen _ => by simp [hintsJustified]⟩
  | hashDone =>
      simp only [step]
      cases st.pendingHash with
      | none => exact je_of_log_eq [] rfl
      | some p => exact je_hashJob p.1 p.2 st
  | compileOk bid css =>
      simp only [step]
      by_cases h : st.pendingCompile.isSome
      · simp only [h, if_true]
        exact je_compileOk bid css st
      · simp only [h, Bool.false_eq_true, if_false]
        exact je_of_log_eq [] rfl
  | compileErr =>
      simp only [step]
      by_cases h : st.pendingCompile.isSome
      · simp only [h, if_true]
        exact justext_trans (b := {st with pendingCompile := none})
          (je_of_log_eq [] rfl) (je_of_log_eq [] (log_uncloak _))
      · simp only [h, Bool.false_eq_true, if_false]
        exact je_of_log_eq [] rfl
  | linkDone n bid ok =>
      simp only [step]
      unfold linkDoneJob
      by_cases h : (n, bid) ∈ st.pendingLinks
      · simp only [h, if_true]
        refine justext_trans (b := {st with
            pendingLinks := st.pendingLinks.filter (fun p => ! (p == (n, bid)))
            log := if ok then st.log ++ [.cssLoaded bid] else st.log}) ?_
          (je_of_log_eq [] (log_uncloak _))
        cases ok
        · exact je_of_log_eq [] rfl
        · exact ⟨[.cssLoaded bid], rfl, fun seen _ => by simp [hintsJustified]⟩
      · simp only [h, if_false]
        exact je_of_log_eq [] rfl
  | preloadCall classes =>
      simp only [step]
      unfold preloadCallJob
      by_cases h : classes.isEmpty
      · simp only [h, if_true]
        exact je_of_log_eq [] rfl
      · simp only [h, Bool.false_eq_true, if_false]
        exact ⟨[.compileReq _], rfl, fun seen _ => by simp [hintsJustified]⟩
  | preloadOk bid =>
      simp only [step]
      by_cases h : st.pendingPreload.isSome
      · simp only [h, if_true]
        unfold preloadOkJob
        refine JustExt.push (Or.inr (Or.inl rfl))
          (b := {st with
            pendingPreload := none
            log := st.log ++ [LogE.compileOk bid]}) rfl ?_
        exact je_lsHint _ (List.mem_cons_self _ _)
      · simp only [h, Bool.false_eq_true, if_false]
        exact je_of_log_eq [] rfl
  | preloadErr => exact je_of_log_eq [] rfl

theorem goodLog_step (st : St) (e : Ev)
    (h : hintsJustified [] st.log = true) :
    hintsJustified [] (step st e).log = true := by
  obtain ⟨B, hB, hg⟩ := je_step st e
  rw [hB, hintsJustified_append, h, hg (collectJ [] st.log)
    (fun i hi => absurd hi (List.not_mem_nil i))]
  rfl

theorem goodLog_boot (pathname search : String) (sess locl : List (String × String))
    (doc : List (List String)) :
    hintsJustified [] (boot pathname search sess locl doc).log = true := by
  unfold boot
  cases h : sGet sess ("weft:p:" ++ pathname ++ search) with
  | none => simp only [h]; rfl
  | some oid => simp [h, appendNode, snap, hintsJustified]

theorem goodLog_run (evs : List Ev) (st : St)
    (h : hintsJustified [] st.log = true) :
    hintsJustified [] (run evs st).log = true := by
  induction evs generalizing st with
  | nil => exact h
  | cons e es ih => exact ih _ (goodLog_step st e h)

/-- **C4 (amended).** The discipline the code maintains: every durable or
session hint write is preceded (in the same page load) by a successful
compile response, an optimistic hash match, or a durable-hint lookup hit for
the same bundle id — but not necessarily by a completed stylesheet load: the
optimistic path writes both hints as soon as the computed hash matches the
guess, and path 3 writes the session hint before its injected link loads. -/
theorem hints_justified (pathname search : String)
    (sess locl : List (String × String)) (doc : List (List String))
    (evs : List Ev) :
    hintsJustified [] (run evs (boot pathname search sess locl doc)).log = true :=
  goodLog_run evs _ (goodLog_boot pathname search sess locl doc)

end Weft
